import Mathlib

/-!
# Verification of `pptx/packaging.py` (python-pptx packaging core)

Shallow embedding of the Open Packaging Conventions read/write engine in
`src/pptx/packaging.py`: the archive filesystem, the content-types index,
the relationship graph, the part-type registry, part loading, and the
package-level `open`/`save` orchestration.  Python exceptions are modelled
with `Except`, mutable collections with explicitly threaded state, and the
process-wide `PartTypeSpec` cache with an explicit cache value.

The static tables of `pptx/spec.py` (`pml_parttypes`,
`default_content_types`) are not part of the source tree examined here;
they are modelled from the spec as abstract read-only tables (`SpecTables`).
XML is modelled as an element tree (`Elem`): tags carry their namespace in
Clark-style qualified form, exactly separating `qname('pr', 'Relationship')`
from a bare `'Relationship'` tag; byte-level serialization is abstracted by
the spec's round-trip contract for the XML library.
-/

namespace Packaging

/-- Python exceptions raised by `pptx.packaging` (pptx.exceptions plus the
built-ins it lets escape).  Messages are abstracted away; only the kind of
error is modelled.  `outOfFuel` is an artifact of the fuel-indexed embedding
of the recursive `Package.loadparts`; the termination theorem shows it never
occurs at the fuel bound used by `Package.open`. -/
inductive PErr where
  | corruptedPackage
  | duplicateKey
  | notXML
  | packageNotFound
  | lookupError
  | keyError
  | typeError
  | attributeError
  | outOfFuel
deriving DecidableEq, Repr

/-! ## String primitives

Structural (kernel-evaluable) implementations of the string operations the
source uses (`startswith`, `endswith`, `split`, slicing, joining,
lexicographic comparison), on the character lists underlying `String`. -/

/-- `s.startswith(pre)`. -/
def strStartsWith (s pre : String) : Bool :=
  pre.data.isPrefixOf s.data

/-- `s.endswith(suf)`. -/
def strEndsWith (s suf : String) : Bool :=
  suf.data.reverse.isPrefixOf s.data.reverse

/-- `s[n:]`. -/
def strDrop (s : String) (n : Nat) : String :=
  ⟨s.data.drop n⟩

/-- `str.split(sep)` for a single-character separator: every occurrence
splits, empty pieces kept. -/
def charSplit (sep : Char) : List Char → List (List Char)
  | [] => [[]]
  | c :: rest =>
    let r := charSplit sep rest
    if c = sep then [] :: r
    else
      match r with
      | h :: t => (c :: h) :: t
      | [] => [[c]]

/-- `p.split('/')` on strings. -/
def strSplitSlash (p : String) : List String :=
  (charSplit '/' p.data).map (fun l => ⟨l⟩)

/-- Join character lists with `'/'` between them. -/
def joinSlashAux : List (List Char) → List Char
  | [] => []
  | [x] => x
  | x :: xs => x ++ '/' :: joinSlashAux xs

/-- `'/'.join(xs)`. -/
def strJoinSlash (xs : List String) : String :=
  ⟨joinSlashAux (xs.map String.data)⟩

/-- Lexicographic comparison of character lists by code point (Python
string `<`). -/
def charListLt : List Char → List Char → Bool
  | [], [] => false
  | [], _ :: _ => true
  | _ :: _, [] => false
  | a :: as, b :: bs =>
    if a.val < b.val then true else if b.val < a.val then false else charListLt as bs

/-! ## POSIX path helpers

`packaging.py` calls `os.path.join`, `os.path.abspath`, `os.path.split` and
`os.path.splitext` on item URIs (always forward-slash paths).  These are the
CPython `posixpath` algorithms, transcribed. -/

/-- `posixpath.join(a, b)` for the two-argument form used by the source. -/
def posixJoin (a b : String) : String :=
  if strStartsWith b "/" then b
  else if a = "" ∨ strEndsWith a "/" then a ++ b
  else a ++ "/" ++ b

/-- One step of `posixpath.normpath`'s component loop: `comps` is the
accumulated output in reverse order (`comps.head?` is Python's
`new_comps[-1]`). -/
def normStep (initialSlashes : Bool) (comps : List String) (comp : String) : List String :=
  if comp = "" ∨ comp = "." then comps
  else if comp ≠ ".." ∨ (¬ initialSlashes ∧ comps = []) ∨
          (comps.head? = some "..") then
    comp :: comps
  else
    match comps with
    | [] => []
    | _ :: t => t

/-- The component list produced by `posixpath.normpath` (before joining with
slashes). -/
def normComps (initialSlashes : Bool) (comps : List String) : List String :=
  (comps.foldl (normStep initialSlashes) []).reverse

/-- `posixpath.normpath`. -/
def posixNormpath (p : String) : String :=
  if p = "" then "." else
  let initialSlashes := strStartsWith p "/"
  let doubled := strStartsWith p "//" ∧ ¬ strStartsWith p "///"
  let comps := normComps initialSlashes (strSplitSlash p)
  let joined := strJoinSlash comps
  let path := if initialSlashes then (if doubled then "//" else "/") ++ joined else joined
  if path = "" then "." else path

/-- `posixpath.abspath` for an already-absolute path (every path the source
passes to `os.path.abspath` is absolute, so no process working directory is
involved): `abspath(p) = normpath(p)` when `isabs(p)`. -/
def posixAbspath (p : String) : String :=
  posixNormpath p

/-- Index (from the left) of the last occurrence of `c` in `cs`. -/
def lastIdx (c : Char) (cs : List Char) : Option Nat :=
  match cs.reverse.findIdx? (· = c) with
  | some j => some (cs.length - 1 - j)
  | none => none

/-- `posixpath.split(p)`: head (everything up to the last slash, with
trailing slashes stripped unless the head is all slashes) and tail. -/
def posixSplit (p : String) : String × String :=
  let cs := p.data
  let i := match lastIdx '/' cs with
    | some j => j + 1
    | none => 0
  let head := cs.take i
  let tail := cs.drop i
  let head := if head ≠ [] ∧ head.any (· ≠ '/') then
      (head.reverse.dropWhile (· = '/')).reverse
    else head
  (⟨head⟩, ⟨tail⟩)

/-- `posixpath.splitext(p)`: splits off the extension at the last dot of the
final component, unless that component consists only of leading dots. -/
def posixSplitext (p : String) : String × String :=
  let cs := p.data
  match lastIdx '.' cs with
  | none => (p, "")
  | some dotIdx =>
    let sepIdx : Nat := match lastIdx '/' cs with
      | some j => j + 1
      | none => 0
    if sepIdx ≤ dotIdx ∧ (cs.drop sepIdx |>.take (dotIdx - sepIdx)).any (· ≠ '.') then
      (⟨cs.take dotIdx⟩, ⟨cs.drop dotIdx⟩)
    else (p, "")

/-! ## Small list utilities (Python `dict` / `sorted` behaviour) -/

/-- First binding for `k` in an association list (helper for `dget`). -/
def dgetAux {α β : Type} [DecidableEq α] (k : α) : List (α × β) → Option β
  | [] => none
  | (k', v) :: rest => if k = k' then some v else dgetAux k rest

/-- Lookup in an association list with Python `dict` semantics: the most
recent binding for a key wins (a `{k: v for ...}` comprehension or repeated
`d[k] = v` assignment overwrites earlier bindings). -/
def dget {α β : Type} [DecidableEq α] (d : List (α × β)) (k : α) : Option β :=
  dgetAux k d.reverse

/-- Membership test for the association-list dictionary model. -/
def dmem {α β : Type} [DecidableEq α] (d : List (α × β)) (k : α) : Bool :=
  (dget d k).isSome

/-- The distinct keys of the association-list dictionary model
(`dict.keys()`: one entry per distinct key). -/
def dkeys {α β : Type} [DecidableEq α] (d : List (α × β)) : List α :=
  (d.map Prod.fst).eraseDups

/-- Stable insertion into a `le`-sorted list (sub-step of Python's
`sorted`). -/
def orderedInsert {α : Type} (le : α → α → Bool) (x : α) : List α → List α
  | [] => [x]
  | y :: ys => if le x y then x :: y :: ys else y :: orderedInsert le x ys

/-- Python's `sorted(xs)` with respect to `le` (insertion sort; the inputs
sorted by the source are small key lists, so only the result order
matters). -/
def pySorted {α : Type} (le : α → α → Bool) (xs : List α) : List α :=
  xs.foldr (orderedInsert le) []

/-- Boolean string comparison used by `sorted` on Python strings
(lexicographic). -/
def strLe (a b : String) : Bool := a = b ∨ charListLt a.data b.data

/-- Python 2 comparison of optional strings: `None` sorts before every
string (dict keys produced by `Element.get` may be `None`). -/
def optStrLe (a b : Option String) : Bool :=
  match a, b with
  | none, _ => true
  | some _, none => false
  | some a, some b => strLe a b

/-! ## XML element trees (`lxml.etree` collaborator)

An element is a tag, an attribute list and a child list.  Tags are stored in
qualified (Clark-style) form when created through `pptx.spec.qname`; an
element created with a bare tag (e.g. `etree.Element('Relationship')`) keeps
that bare tag even when appended below a parent carrying a default
namespace map — precisely lxml's behaviour, and the distinction the
round-trip claim turns on. -/

/-- XML element tree. -/
inductive Elem where
  | mk (tag : String) (attrs : List (String × String)) (children : List Elem)

/-- The element's tag. -/
def Elem.tag : Elem → String
  | .mk t _ _ => t

/-- The element's attribute list. -/
def Elem.attrs : Elem → List (String × String)
  | .mk _ a _ => a

/-- The element's children. -/
def Elem.children : Elem → List Elem
  | .mk _ _ c => c

/-- `element.get(key)`: the attribute's value, or `None` when absent. -/
def Elem.get (e : Elem) (k : String) : Option String :=
  e.attrs.lookup k

/-- `element.findall(tag)`: the direct children bearing exactly `tag`. -/
def Elem.findall (e : Elem) (t : String) : List Elem :=
  e.children.filter (fun c => c.tag = t)

/-- `pptx.spec.qname(nsprefix, localname)`: the Clark-qualified tag.
Modelled from the spec: `pptx.spec` is not in the examined source tree; its
`qname` helper maps a namespace prefix and local name to the fully
namespace-qualified tag that lxml stores after parsing, which the model
renders as `prefix:localname` (any injective encoding distinct from the bare
local name is faithful). -/
def qname (nsp localname : String) : String :=
  nsp ++ ":" ++ localname

/-! ## Archive filesystem

A zip member's content either parses as well-formed XML (modelled as the
parsed `Elem`) or it does not (an opaque byte blob).  `Bytes` is the value
returned by `getstream(...).read()`: either raw non-XML bytes or the
serialized form of an element, kept symbolic under the spec's
parse/serialize round-trip contract for the XML library. -/

/-- Content of one archive member. -/
inductive FSItem where
  | xml (e : Elem)
  | blob (b : List Nat)

/-- A byte string as read from a stream. -/
inductive Bytes where
  | raw (b : List Nat)
  | ofXml (e : Elem)

/-- `ZipFileSystem`: member names (archive-relative, no leading slash)
mapped to their contents. -/
structure ZipFS where
  members : List (String × FSItem)

/-- `ZipFileSystem.itemURIs`: member names with a leading slash prepended,
directory entries dropped, sorted. -/
def ZipFS.itemURIs (z : ZipFS) : List String :=
  pySorted strLe (((z.members.map Prod.fst).filter (fun n => ¬ strEndsWith n "/")).map
    (fun n => "/" ++ n))

/-- `BaseFileSystem.__contains__`: membership of an item URI. -/
def ZipFS.containsURI (z : ZipFS) (u : String) : Bool :=
  u ∈ z.itemURIs

/-- `ZipFileSystem.getstream(itemURI).read()`: the member's bytes
(`zip.read` keyed by the URI with its leading slash trimmed). -/
def ZipFS.getstream (z : ZipFS) (u : String) : Except PErr Bytes :=
  if ¬ z.containsURI u then .error .lookupError
  else
    match dget z.members (strDrop u 1) with
    | some (.blob b) => .ok (.raw b)
    | some (.xml e) => .ok (.ofXml e)
    | none => .error .keyError

/-- `BaseFileSystem.getblob`. -/
def ZipFS.getblob (z : ZipFS) (u : String) : Except PErr Bytes :=
  if ¬ z.containsURI u then .error .lookupError
  else z.getstream u

/-- `BaseFileSystem.getelement`: parse the member as XML, failing with
`NotXMLError` when the bytes are not well-formed XML. -/
def ZipFS.getelement (z : ZipFS) (u : String) : Except PErr Elem :=
  if ¬ z.containsURI u then .error .lookupError
  else
    match z.getstream u with
    | .ok (.ofXml e) => .ok e
    | .ok (.raw _) => .error .notXML
    | .error e => .error e

/-- `ZipFileSystem.new()`: a fresh, empty archive — any existing file at the
location is truncated. -/
def ZipFS.new : ZipFS := ⟨[]⟩

/-- `ZipFileSystem.write_blob`: append the bytes under a new member name,
failing with `DuplicateKeyError` when the item URI already exists. -/
def ZipFS.write_blob (z : ZipFS) (b : Bytes) (u : String) :
    (Except PErr Unit) × ZipFS :=
  if z.containsURI u then (.error .duplicateKey, z)
  else
    (.ok (), ⟨z.members ++ [(strDrop u 1,
      match b with
      | .raw bs => .blob bs
      | .ofXml e => .xml e)]⟩)

/-- `ZipFileSystem.write_element`: serialize the element and append it under
a new member name, failing with `DuplicateKeyError` when the item URI
already exists (re-parsing the stored bytes yields the element again, per
the XML library's round-trip contract). -/
def ZipFS.write_element (z : ZipFS) (e : Elem) (u : String) :
    (Except PErr Unit) × ZipFS :=
  if z.containsURI u then (.error .duplicateKey, z)
  else (.ok (), ⟨z.members ++ [(strDrop u 1, .xml e)]⟩)

/-- The on-disk world: locations holding zip archives. -/
abbrev Disk := List (String × ZipFS)

/-- Read the archive at a location. -/
def diskGet (d : Disk) (path : String) : Option ZipFS :=
  dget d path

/-- Store an archive at a location (replacing any previous one). -/
def diskSet (d : Disk) (path : String) (z : ZipFS) : Disk :=
  d ++ [(path, z)]

/-- `FileSystem(path)` factory: an existing archive yields a
`ZipFileSystem`; anything else raises `PackageNotFoundError`.  (The
directory branch, `DirectoryFileSystem`, implements the same
`BaseFileSystem` contract and is not needed by any claim.) -/
def fileSystem (d : Disk) (path : String) : Except PErr ZipFS :=
  match diskGet d path with
  | some z => .ok z
  | none => .error .packageNotFound

/-! ## Part-type registry (`PartTypeSpec`) -/

/-- One row of the static format table.  Modelled from the spec: the
read-only table `pptx.spec.pml_parttypes` (not in the examined source tree)
supplies each part type's fixed attributes — basename, extension,
cardinality, required flag, base directory, relationship requirement
tri-state and relationship-type URI. -/
structure PartTypeRow where
  basename : String
  ext : String
  cardinality : String
  required : Bool
  baseURI : String
  has_rels : String
  rel_type : String
deriving DecidableEq, Repr

/-- The static tables of `pptx.spec`, plus the registry-level load-class
hooks of `PartTypeSpec`.  Modelled from the spec: `pml_parttypes` is keyed
by content-type string; `default_content_types` is a read-only table of
default content types keyed by extension (with leading dot); the load-class
hook is an extension point never invoked by the packaging core, so load
classes are modelled as opaque names. -/
structure SpecTables where
  pml_parttypes : List (String × PartTypeRow)
  default_content_types : List (String × String)
  loadclassmap : List (String × String)
  defloadclass : Option String
deriving DecidableEq, Repr

/-- The attributes carried by an initialized `PartTypeSpec` instance
(everything `__init__` assigns after the table check). -/
structure PTSAttrs where
  content_type : Option String
  basename : String
  ext : String
  cardinality : String
  required : Bool
  baseURI : String
  has_rels : String
  rel_type : String
  loadclass : Option String
deriving DecidableEq, Repr

/-- The attribute assignments performed by `PartTypeSpec.__init__` once the
content type is found in the table. -/
def mkPTSAttrs (tbl : SpecTables) (content_type : Option String) (row : PartTypeRow) :
    PTSAttrs :=
  { content_type := content_type
    basename := row.basename
    ext := row.ext
    cardinality := row.cardinality
    required := row.required
    baseURI := row.baseURI
    has_rels := row.has_rels
    rel_type := row.rel_type
    loadclass :=
      match content_type with
      | some ct =>
        match dget tbl.loadclassmap ct with
        | some lc => some lc
        | none => tbl.defloadclass
      | none => tbl.defloadclass }

/-- `PartTypeSpec.format`: `'xml'` iff the table extension is `'.xml'`,
else `'binary'`. -/
def PTSAttrs.format (a : PTSAttrs) : String :=
  if a.ext = ".xml" then "xml" else "binary"

/-- An entry of the process-wide `PartTypeSpec.__instances` cache: the
mutable object state (`_loaded` flag plus the attributes, unset until
`__init__` completes the table check). -/
structure PTSpec where
  loaded : Bool
  attrs : Option PTSAttrs
deriving DecidableEq, Repr

/-- The process-wide `PartTypeSpec.__instances` cache, keyed by the
content-type value passed to the constructor (`None` is a legal dict
key). -/
abbrev PTSCache := List (Option String × PTSpec)

/-- Overwrite the cache entry for a key (object mutation seen through the
cache). -/
def cacheSet (c : PTSCache) (k : Option String) (v : PTSpec) : PTSCache :=
  c ++ [(k, v)]

/-- `PartTypeSpec(content_type)`: `__new__` (create-or-fetch the cached
instance) followed by `__init__` (skip when the instance is already marked
`_loaded`; otherwise mark it loaded, check the static table — raising
`KeyError` when the content type is absent, with the instance left in the
cache — and assign the attributes from the table row). -/
def partTypeSpecCtor (tbl : SpecTables) (c : PTSCache) (content_type : Option String) :
    (Except PErr PTSpec) × PTSCache :=
  -- __new__: fetch from the cache, creating a blank instance on a miss
  let fetched : PTSpec × PTSCache :=
    match dget c content_type with
    | some inst => (inst, c)
    | none =>
      let inst : PTSpec := { loaded := false, attrs := none }
      (inst, cacheSet c content_type inst)
  let inst := fetched.1
  let c := fetched.2
  -- __init__
  if inst.loaded then (.ok inst, c)
  else
    let inst := { inst with loaded := true }
    let c := cacheSet c content_type inst
    match content_type with
    | none => (.error .keyError, c)
    | some ct =>
      match dget tbl.pml_parttypes ct with
      | none => (.error .keyError, c)
      | some row =>
        let inst := { inst with attrs := some (mkPTSAttrs tbl content_type row) }
        (.ok inst, cacheSet c content_type inst)

/-- Pure view of `PartTypeSpec(content_type)` on a healthy cache: the
attributes of the (unique) instance for `content_type`, or `KeyError` when
the content type is not in the static table.  `partTypeSpecCtor_pure` below
proves that on any cache in which no failed lookup has been poisoned in,
the stateful constructor returns exactly this value; the package loader
uses this pure view. -/
def ptsLookup (tbl : SpecTables) (content_type : Option String) :
    Except PErr PTSAttrs :=
  match content_type with
  | none => .error .keyError
  | some ct =>
    match dget tbl.pml_parttypes ct with
    | none => .error .keyError
    | some row => .ok (mkPTSAttrs tbl content_type row)

/-! ## Content-types item -/

/-- The default or override map of `ContentTypesItem`: a Python dict built
from `Element.get` results, so both keys and values are optional strings. -/
abbrev CTDict := List (Option String × Option String)

/-- `ContentTypesItem`: the two maps, unset (`None`) until `load` or
`compose` populates them. -/
structure CTI where
  defaults : Option CTDict
  overrides : Option CTDict

/-- `ContentTypesItem()`: a fresh instance with both maps unset. -/
def ctiNew : CTI := ⟨none, none⟩

/-- The default-map key `__getitem__` derives from a part name: the
`os.path.splitext` extension with its leading dot trimmed — case preserved,
no lower-casing. -/
def extKey (partname : String) : String :=
  let ext := (posixSplitext partname).2
  if strStartsWith ext "." then strDrop ext 1 else ext

/-- `ContentTypesItem.__getitem__(partname)`: raise `LookupError` before
`load`/`compose`; otherwise the override for the exact part name wins, then
the default for the part name's `extKey`, else `LookupError`. -/
def ctiGetitem (c : CTI) (partname : String) : Except PErr (Option String) :=
  match c.defaults, c.overrides with
  | some ds, some os =>
    match dget os (some partname) with
    | some v => .ok v
    | none =>
      match dget ds (some (extKey partname)) with
      | some v => .ok v
      | none => .error .lookupError
  | _, _ => .error .lookupError

/-- `ContentTypesItem.load(fs)`: parse `/[Content_Types].xml` into the
default (keyed by `Extension`) and override (keyed by `PartName`) maps. -/
def ctiLoad (fs : ZipFS) : Except PErr CTI :=
  match fs.getelement "/[Content_Types].xml" with
  | .error e => .error e
  | .ok element =>
    let defaults := (element.findall (qname "ct" "Default")).map
      (fun d => (d.get "Extension", d.get "ContentType"))
    let overrides := (element.findall (qname "ct" "Override")).map
      (fun o => (o.get "PartName", o.get "ContentType"))
    .ok ⟨some defaults, some overrides⟩

/-- `ContentTypesItem.element`: the `ct:Types` tree with one sorted
`ct:Default` child per default extension and one sorted `ct:Override` child
per override part name.  `element.set` with a `None` key or value raises
`TypeError`. -/
def ctiElement (c : CTI) : Except PErr Elem :=
  let mkChildren : String → String → Option CTDict → Except PErr (List Elem) :=
    fun tag keyAttr dict =>
      match dict with
      | some d =>
        if d = [] then .ok []
        else
          (pySorted optStrLe (dkeys d)).mapM (fun k =>
            match k, dget d k with
            | some ks, some (some vs) =>
              .ok (Elem.mk tag [(keyAttr, ks), ("ContentType", vs)] [])
            | _, _ => .error .typeError)
      | none => .ok []
  match mkChildren (qname "ct" "Default") "Extension" c.defaults with
  | .error e => .error e
  | .ok defaultElems =>
    match mkChildren (qname "ct" "Override") "PartName" c.overrides with
    | .error e => .error e
    | .ok overrideElems =>
      .ok (Elem.mk (qname "ct" "Types") [] (defaultElems ++ overrideElems))

/-! ## Relationships -/

/-- `Relationship`: local id, relationship type and relative target, read
off a `Relationship` element's attributes (each may be absent). -/
structure Rel where
  rId : Option String
  reltype : Option String
  target : Option String
deriving DecidableEq, Repr

/-- `Relationship(parent, element)`: read the three attributes. -/
def relFromElem (e : Elem) : Rel :=
  { rId := e.get "Id", reltype := e.get "Type", target := e.get "Target" }

/-- `Relationship.element`: a namespace-less `Relationship` element (created
with the bare tag `'Relationship'`, not `qname('pr', 'Relationship')`)
carrying the three attributes; `element.set` with a `None` value raises
`TypeError`. -/
def Rel.element (r : Rel) : Except PErr Elem :=
  match r.rId, r.reltype, r.target with
  | some i, some t, some g =>
    .ok (Elem.mk "Relationship" [("Id", i), ("Type", t), ("Target", g)] [])
  | _, _, _ => .error .typeError

/-- `Relationship.target_partname`: resolve the relative target against the
owning collection's `baseURI` with `os.path.join` and normalize with
`os.path.abspath` (a `None` target raises `TypeError` inside
`os.path.join`). -/
def Rel.targetPartname (baseURI : String) (r : Rel) : Except PErr String :=
  match r.target with
  | none => .error .typeError
  | some t => .ok (posixAbspath (posixJoin baseURI t))

/-- `RelationshipCollection`: the underlying relationship list plus the
`_id_dict` index keyed by `rId`. -/
structure RelCollection where
  rels : List Rel
  id_dict : List (Option String × Rel)
deriving DecidableEq, Repr

/-- An empty `RelationshipCollection`. -/
def rcEmpty : RelCollection := ⟨[], []⟩

/-- `RelationshipCollection.additem(rel_elm)`: construct the
`Relationship`, fail with `DuplicateKeyError` when its `rId` is already
indexed (leaving the collection unchanged), else index and append it. -/
def RelCollection.additem (rc : RelCollection) (rel_elm : Elem) :
    (Except PErr Rel) × RelCollection :=
  let rel := relFromElem rel_elm
  if dmem rc.id_dict rel.rId then (.error .duplicateKey, rc)
  else (.ok rel, ⟨rc.rels ++ [rel], rc.id_dict ++ [(rel.rId, rel)]⟩)

/-- `RelationshipCollection.getitem(key)`: the relationship with local id
`key`, or `LookupError`. -/
def RelCollection.getitem (rc : RelCollection) (key : Option String) :
    Except PErr Rel :=
  match dget rc.id_dict key with
  | some rel => .ok rel
  | none => .error .lookupError

/-- The `for r in relationships: self.__relationships.additem(r)` loop of
`RelationshipsItem.load`. -/
def relsAddAll (rc : RelCollection) : List Elem → Except PErr RelCollection
  | [] => .ok rc
  | e :: es =>
    match rc.additem e with
    | (.ok _, rc') => relsAddAll rc' es
    | (.error err, _) => .error err

/-- `RelationshipsItem.load(fs, itemURI)`: parse the rels item and add each
`pr:Relationship` child to a fresh collection (namespace-qualified lookup —
a bare `Relationship` child is not found). -/
def relsItemLoad (fs : ZipFS) (itemURI : String) : Except PErr RelCollection :=
  match fs.getelement itemURI with
  | .error e => .error e
  | .ok element =>
    relsAddAll rcEmpty (element.findall (qname "pr" "Relationship"))

/-- `RelationshipsItem.element`: the `pr:Relationships` root (created under
the relationships namespace map) with each relationship's element appended
as-is. -/
def relsItemElement (rc : RelCollection) : Except PErr Elem :=
  match rc.rels.mapM Rel.element with
  | .error e => .error e
  | .ok children => .ok (Elem.mk (qname "pr" "Relationships") [] children)

/-- `PackageRelationshipsItem.baseURI`: the package root. -/
def pkgRelsBaseURI : String := "/"

/-- `PackageRelationshipsItem.itemURI`: the fixed package rels path. -/
def pkgRelsItemURI : String := "/_rels/.rels"

/-- `PackageRelationshipsItem.load(fs)`. -/
def pkgRelsItemLoad (fs : ZipFS) : Except PErr RelCollection :=
  relsItemLoad fs pkgRelsItemURI

/-- `PartRelationshipsItem` after a successful `load`: the base URI derived
from the owning part's location, the rels item's URI, and the parsed
collection. -/
structure PartRelsItem where
  baseURI : String
  itemURI : String
  relationships : RelCollection
deriving DecidableEq, Repr

/-- `PartRelationshipsItem.load(part, fs, itemURI)`: record the owning
part's directory as `baseURI` and the item URI, then parse the rels item. -/
def partRelsItemLoad (partItemURI : String) (fs : ZipFS) (itemURI : String) :
    Except PErr PartRelsItem :=
  match relsItemLoad fs itemURI with
  | .error e => .error e
  | .ok rc => .ok ⟨(posixSplit partItemURI).1, itemURI, rc⟩

/-! ## Parts and the part collection -/

/-- `Part` after `load`: part name, resolved type spec, exactly one of
`element`/`blob` populated (per the type's format kind), and the optional
relationships item. -/
structure Part where
  partname : String
  typespec : PTSAttrs
  element : Option Elem
  blob : Option Bytes
  relsitem : Option PartRelsItem

/-- `Part.relationships`: the relationship collection, or `None` when the
part has no relationships item. -/
def Part.relationships (p : Part) : Option RelCollection :=
  p.relsitem.map (fun ri => ri.relationships)

/-- The companion relationship-item URI computed inside
`Part.__relsitemURI`: `'%s/_rels/%s.rels' % os.path.split(partname)` — the
sibling `_rels` directory, part filename with `.rels` appended. -/
def companionRelsURI (partname : String) : String :=
  (posixSplit partname).1 ++ "/_rels/" ++ (posixSplit partname).2 ++ ".rels"

/-- `Part.__relsitemURI(typespec, partname, fs)`: `None` for `'never'`; the
companion URI for `'always'` regardless of presence; for `'optional'`, the
companion URI exactly when present. -/
def relsitemURI (typespec : PTSAttrs) (partname : String) (fs : ZipFS) :
    Option String :=
  if typespec.has_rels = "never" then none
  else
    let u := companionRelsURI partname
    let present := fs.containsURI u
    if typespec.has_rels = "optional" then (if present then some u else none)
    else some u

/-- `Part().load(fs, partname, content_type)`: resolve the type spec, read
the body as an element or a blob per the spec's format kind, then handle
the relationships item — a computed companion URI absent from the archive
raises `CorruptedPackageError`, otherwise it is parsed and attached. -/
def partLoad (tbl : SpecTables) (fs : ZipFS) (partname : String)
    (content_type : Option String) : Except PErr Part :=
  match ptsLookup tbl content_type with
  | .error e => .error e
  | .ok typespec =>
    let body : Except PErr (Option Elem × Option Bytes) :=
      if typespec.format = "xml" then
        match fs.getelement partname with
        | .error e => .error e
        | .ok el => .ok (some el, none)
      else
        match fs.getstream partname with
        | .error e => .error e
        | .ok b => .ok (none, some b)
    match body with
    | .error e => .error e
    | .ok (element, blob) =>
      match relsitemURI typespec partname fs with
      | none =>
        .ok { partname := partname, typespec := typespec, element := element,
              blob := blob, relsitem := none }
      | some u =>
        if ¬ fs.containsURI u then .error .corruptedPackage
        else
          match partRelsItemLoad partname fs u with
          | .error e => .error e
          | .ok ri =>
            .ok { partname := partname, typespec := typespec, element := element,
                  blob := blob, relsitem := some ri }

/-- `PartCollection`: the part list plus the `__partname_dict` index. -/
structure PCState where
  partsList : List Part
  partname_dict : List (String × Part)

/-- An empty `PartCollection`. -/
def pcEmpty : PCState := ⟨[], []⟩

/-- `PartCollection.__contains__(partname)`. -/
def pcContains (st : PCState) (partname : String) : Bool :=
  dmem st.partname_dict partname

/-- The item paths present in the collection's index. -/
def pcKeys (st : PCState) : List String :=
  st.partname_dict.map Prod.fst

/-- `PartCollection.getitem(partname)`: the part, or `LookupError`. -/
def pcGetitem (st : PCState) (partname : String) : Except PErr Part :=
  match dget st.partname_dict partname with
  | some p => .ok p
  | none => .error .lookupError

/-- `PartCollection.loadpart(fs, partname, content_type)`: fail with
`DuplicateKeyError` when the part name is already present (collection
unchanged); otherwise load the part and register it (any load failure also
leaves the collection unchanged). -/
def pcLoadpart (tbl : SpecTables) (fs : ZipFS) (st : PCState) (partname : String)
    (content_type : Option String) : (Except PErr Part) × PCState :=
  if dmem st.partname_dict partname then (.error .duplicateKey, st)
  else
    match partLoad tbl fs partname content_type with
    | .error e => (.error e, st)
    | .ok part =>
      (.ok part, ⟨st.partsList ++ [part], st.partname_dict ++ [(partname, part)]⟩)

/-! ## Package -/

/-- `Package.loadparts(fs, cti, rels)`, fuel-indexed: walk the relationship
list; resolve each target to a part name; skip it when already loaded
(cycle safety); otherwise resolve its content type, load the part, and —
when the new part carries a non-empty relationship collection — recurse on
those relationships before continuing.  `baseURI` is the owning
collection's base (delegated to the relationships item in the source).
The fuel only bounds the recursion depth of the embedding;
`loadpartsF_no_fuel_error` shows the bound used by `packageOpen` is never
reached. -/
def loadpartsF (tbl : SpecTables) (fs : ZipFS) (cti : CTI) :
    Nat → PCState → String → List Rel → Except PErr PCState
  | 0, _, _, _ => .error .outOfFuel
  | _ + 1, st, _, [] => .ok st
  | fuel + 1, st, baseURI, r :: rest =>
    match r.targetPartname baseURI with
    | .error e => .error e
    | .ok partname =>
      if pcContains st partname then
        loadpartsF tbl fs cti fuel st baseURI rest
      else
        match ctiGetitem cti partname with
        | .error e => .error e
        | .ok ct =>
          match pcLoadpart tbl fs st partname ct with
          | (.error e, _) => .error e
          | (.ok part, st') =>
            let nested : Except PErr PCState :=
              match part.relsitem with
              | some ri =>
                if ri.relationships.rels = [] then .ok st'
                else loadpartsF tbl fs cti fuel st' ri.baseURI ri.relationships.rels
              | none => .ok st'
            match nested with
            | .error e => .error e
            | .ok st'' => loadpartsF tbl fs cti fuel st'' baseURI rest

/-- An upper bound on the length of any relationship list parsed out of
`fs` (every parsed list selects among some member element's children). -/
def fsRelsBound (fs : ZipFS) : Nat :=
  (fs.members.map (fun m =>
    match m.2 with
    | .xml e => e.children.length
    | .blob _ => 0)).sum

/-- Fuel that `loadpartsF_no_fuel_error` proves sufficient for any traversal
started from an empty part collection. -/
def fuelFor (fs : ZipFS) : Nat :=
  (fs.members.length + 1) * (fsRelsBound fs + 2)

/-- The in-memory `Package`: its part collection and (after `open`) the
package relationships item. -/
structure PackageM where
  parts : PCState
  relsitem : Option RelCollection

/-- `Package().open(path)`: build the filesystem, load the content-types
item and the package relationships item, then walk the relationship graph
from the package relationships. -/
def packageOpen (tbl : SpecTables) (d : Disk) (path : String) :
    Except PErr PackageM :=
  match fileSystem d path with
  | .error e => .error e
  | .ok fs =>
    match ctiLoad fs with
    | .error e => .error e
    | .ok cti =>
      match pkgRelsItemLoad fs with
      | .error e => .error e
      | .ok prels =>
        match loadpartsF tbl fs cti (fuelFor fs) pcEmpty pkgRelsBaseURI prels.rels with
        | .error e => .error e
        | .ok st => .ok ⟨st, some prels⟩

/-- `ContentTypesItem.compose(parts)`: seed the default map from the
`'.rels'` and `'.xml'` table entries, then for each part record an exact
override when its extension is `'.xml'`, else copy the table default for
its extension, else raise `LookupError`. -/
def ctiCompose (tbl : SpecTables) (parts : List Part) : Except PErr CTI :=
  let seed : Except PErr CTDict :=
    ([".rels", ".xml"] : List String).foldlM
      (fun acc ext =>
        match dget tbl.default_content_types ext with
        | some v => .ok (acc ++ [(some (strDrop ext 1), some v)])
        | none => .error .keyError)
      []
  match seed with
  | .error e => .error e
  | .ok defaults0 =>
    let step : CTDict × CTDict → Part → Except PErr (CTDict × CTDict) :=
      fun acc part =>
        let ext := (posixSplitext part.partname).2
        if ext = ".xml" then
          .ok (acc.1, acc.2 ++ [(some part.partname, part.typespec.content_type)])
        else
          match dget tbl.default_content_types ext with
          | some v => .ok (acc.1 ++ [(some (strDrop ext 1), some v)], acc.2)
          | none => .error .lookupError
    match parts.foldlM step (defaults0, []) with
    | .error e => .error e
    | .ok (ds, os) => .ok ⟨some ds, some os⟩

/-- `Package.__normalizedpath(path)`: append `.pptx` when absent. -/
def normalizedpath (path : String) : String :=
  if strEndsWith path ".pptx" then path else path ++ ".pptx"

/-- Write an element computation's result into the session archive
(`write_element` preceded by building the element, e.g.
`zipfs.write_element(cti.element, ...)` — building may itself raise). -/
def writeElemResult (z : ZipFS) (e : Except PErr Elem) (u : String) :
    (Except PErr Unit) × ZipFS :=
  match e with
  | .error err => (.error err, z)
  | .ok el => z.write_element el u

/-- Write one part during `save`: the body (element for `'xml'` format,
blob otherwise; a missing body raises `TypeError` inside serialization)
followed by its relationships item when it has one. -/
def savePart (z : ZipFS) (part : Part) : (Except PErr Unit) × ZipFS :=
  let bodyRes : (Except PErr Unit) × ZipFS :=
    if part.typespec.format = "xml" then
      match part.element with
      | some el => z.write_element el part.partname
      | none => (.error .typeError, z)
    else
      match part.blob with
      | some b => z.write_blob b part.partname
      | none => (.error .typeError, z)
  match bodyRes with
  | (.error e, z') => (.error e, z')
  | (.ok _, z') =>
    match part.relsitem with
    | some ri =>
      writeElemResult z' (relsItemElement ri.relationships) ri.itemURI
    | none => (.ok (), z')

/-- The archive-writing session of `Package.save`: starting from the fresh
(truncated) archive created by `ZipFileSystem(path).new()`, write the
composed content-types item, the package rels item, and every part (body
plus rels item); each failure stops the session, leaving the archive
partially written. -/
def packageSaveArchive (tbl : SpecTables) (pkg : PackageM) :
    (Except PErr Unit) × ZipFS :=
  let z := ZipFS.new
  match ctiCompose tbl pkg.parts.partsList with
  | .error e => (.error e, z)
  | .ok cti =>
    match writeElemResult z (ctiElement cti) "/[Content_Types].xml" with
    | (.error e, z') => (.error e, z')
    | (.ok _, z') =>
      let rootRes : (Except PErr Unit) × ZipFS :=
        match pkg.relsitem with
        | none => (.error .attributeError, z')
        | some prels => writeElemResult z' (relsItemElement prels) "/_rels/.rels"
      match rootRes with
      | (.error e, z'') => (.error e, z'')
      | (.ok _, z'') =>
        pkg.parts.partsList.foldl
          (fun acc part =>
            match acc with
            | (.error e, zAcc) => (.error e, zAcc)
            | (.ok _, zAcc) => savePart zAcc part)
          (.ok (), z'')

/-- `Package.save(path)`: normalize the path, run the archive-writing
session against a fresh archive at that location (truncating any existing
file there — the prior disk contents at the target are never consulted),
and leave the session's resulting archive on disk. -/
def packageSave (tbl : SpecTables) (pkg : PackageM) (path : String) (d : Disk) :
    (Except PErr Unit) × Disk :=
  let path := normalizedpath path
  let res := packageSaveArchive tbl pkg
  (res.1, diskSet d path res.2)

/-- The round-trip experiment of the spec: open a package, save it to a
temporary location, reopen the saved archive, and report both packages'
loaded item-path lists. -/
def roundTripKeys (tbl : SpecTables) (d : Disk) (path tmp : String) :
    Except PErr (List String × List String) :=
  match packageOpen tbl d path with
  | .error e => .error e
  | .ok p1 =>
    match packageSave tbl p1 tmp d with
    | (.error e, _) => .error e
    | (.ok _, d1) =>
      match packageOpen tbl d1 (normalizedpath tmp) with
      | .error e => .error e
      | .ok p2 => .ok (pcKeys p1.parts, pcKeys p2.parts)

/-! ## Helper lemmas on the dictionary model -/

theorem dget_append {α β : Type} [DecidableEq α] (d₁ d₂ : List (α × β)) (k : α) :
    dget (d₁ ++ d₂) k = (dget d₂ k).or (dget d₁ k) := by
  unfold dget
  rw [List.reverse_append]
  induction d₂.reverse with
  | nil => simp [dgetAux]
  | cons hd tl ih =>
    obtain ⟨k', v⟩ := hd
    by_cases h : k = k'
    · simp [dgetAux, h]
    · simp [dgetAux, h, ih]

theorem dget_append_single_same {α β : Type} [DecidableEq α] (d : List (α × β))
    (k : α) (v : β) : dget (d ++ [(k, v)]) k = some v := by
  rw [dget_append]
  simp [dget, dgetAux]

theorem dget_append_single_other {α β : Type} [DecidableEq α] (d : List (α × β))
    (k k' : α) (v : β) (h : k' ≠ k) : dget (d ++ [(k, v)]) k' = dget d k' := by
  rw [dget_append]
  simp [dget, dgetAux, h]

/-! ## Concrete fixtures

A small but complete example world: a one-part package whose manifest,
package relationships item and part body follow the persisted layout of
§6, together with an example instantiation of the static tables
(spec-modelled; any instantiation with at least one XML part type
exercises the same code paths). -/

/-- Example static tables: one registered XML part type. -/
def tblEx : SpecTables :=
  { pml_parttypes :=
      [("ctP", { basename := "presentation", ext := ".xml", cardinality := "single",
                 required := true, baseURI := "/ppt", has_rels := "optional",
                 rel_type := "rtP" })]
    default_content_types := [(".rels", "ctRels"), (".xml", "ctXml")]
    loadclassmap := []
    defloadclass := none }

/-- A well-formed one-part package archive (manifest, package rels item
with one namespace-qualified `pr:Relationship`, one part). -/
def origZip : ZipFS :=
  ⟨[("[Content_Types].xml", .xml (Elem.mk (qname "ct" "Types") []
      [Elem.mk (qname "ct" "Default")
        [("Extension", "rels"), ("ContentType", "ctRels")] [],
       Elem.mk (qname "ct" "Default")
        [("Extension", "xml"), ("ContentType", "ctXml")] [],
       Elem.mk (qname "ct" "Override")
        [("PartName", "/ppt/presentation.xml"), ("ContentType", "ctP")] []])),
    ("_rels/.rels", .xml (Elem.mk (qname "pr" "Relationships") []
      [Elem.mk (qname "pr" "Relationship")
        [("Id", "rId1"), ("Type", "rtP"), ("Target", "ppt/presentation.xml")] []])),
    ("ppt/presentation.xml", .xml (Elem.mk "p:presentation" [] []))]⟩

/-- The example disk: the archive stored at `/orig.pptx`. -/
def diskEx : Disk := [("/orig.pptx", origZip)]

/-- The member names of an archive (observable identity of its contents). -/
def zipNames (z : ZipFS) : List String := z.members.map Prod.fst

/-! ## Claim C10: lookup on an unpopulated content-types index -/

/-- C10: for every item path, looking a content type up in a
`ContentTypesItem` on which neither `load` nor `compose` has yet been
called (both internal maps still `None`) fails with `LookupError` — the
guard at the top of `__getitem__` fires before either map is touched, so
the index is unusable until populated (no value returned, no type
error). -/
theorem ctiGetitem_unloaded (partname : String) :
    ctiGetitem ctiNew partname = .error .lookupError := rfl

/-! ## Claim C4: content-type resolution order -/

/-- C4 counterexample: the claim says resolution lower-cases the stripped
extension before consulting the default map; the code does not.  With a
default map holding `xml -> application/xml` and no overrides, the claim
demands that `/ppt/foo.XML` resolve to `application/xml`, but
`__getitem__` looks up the case-preserved key `XML` and raises
`LookupError` (while the lower-case `/ppt/foo.xml` resolves). -/
theorem ctiGetitem_no_lowercase_cex :
    ¬ (ctiGetitem ⟨some [(some "xml", some "application/xml")], some []⟩
        "/ppt/foo.XML" = .ok (some "application/xml")) ∧
    ctiGetitem ⟨some [(some "xml", some "application/xml")], some []⟩
      "/ppt/foo.XML" = .error .lookupError ∧
    ctiGetitem ⟨some [(some "xml", some "application/xml")], some []⟩
      "/ppt/foo.xml" = .ok (some "application/xml") := by
  have h : ctiGetitem ⟨some [(some "xml", some "application/xml")], some []⟩
      "/ppt/foo.XML" = .error .lookupError := rfl
  refine ⟨?_, h, rfl⟩
  rw [h]
  simp

/-- C4 (amended): on a populated index, resolution first consults the
override map and returns its value when the part name is present there
(overrides win even when a matching extension default exists); otherwise it
strips the part name's extension — used case-sensitively, with no
lower-casing — and returns the default map's value for that key; if neither
map matches it fails with `LookupError`. -/
theorem ctiGetitem_resolution (ds os : CTDict) (partname : String) :
    (∀ v, dget os (some partname) = some v →
      ctiGetitem ⟨some ds, some os⟩ partname = .ok v) ∧
    (dget os (some partname) = none →
      (∀ v, dget ds (some (extKey partname)) = some v →
        ctiGetitem ⟨some ds, some os⟩ partname = .ok v) ∧
      (dget ds (some (extKey partname)) = none →
        ctiGetitem ⟨some ds, some os⟩ partname = .error .lookupError)) := by
  refine ⟨fun v hv => ?_, fun hno => ⟨fun v hv => ?_, fun hnd => ?_⟩⟩
  · simp [ctiGetitem, hv]
  · simp [ctiGetitem, hno, hv]
  · simp [ctiGetitem, hno, hnd]

/-- C4 witness: the amended resolution at concrete inputs — override
precedence, default fallback, and failure when both maps miss. -/
theorem ctiGetitem_resolution_witness :
    ctiGetitem ⟨some [(some "xml", some "application/xml")],
        some [(some "/ppt/foo.xml", some "ctC")]⟩ "/ppt/foo.xml"
      = .ok (some "ctC") ∧
    ctiGetitem ⟨some [(some "xml", some "ctXml")], some []⟩ "/a/b.xml"
      = .ok (some "ctXml") ∧
    ctiGetitem ⟨some [(some "xml", some "ctXml")], some []⟩ "/a/b.bin"
      = .error .lookupError := by
  refine ⟨?_, ?_, ?_⟩
  · exact (ctiGetitem_resolution _ _ _).1 _ (by rfl)
  · exact ((ctiGetitem_resolution _ _ _).2 (by rfl)).1 _ (by rfl)
  · exact ((ctiGetitem_resolution _ _ _).2 (by rfl)).2 (by rfl)

/-! ## Claim C8: unknown content type lookups -/

/-- The `PartTypeSpec.__instances` cache after one failed lookup of the
unregistered content type `ctBogus`. -/
def poisonedCacheEx : PTSCache :=
  (partTypeSpecCtor tblEx [] (some "ctBogus")).2

/-- C8: the claim (and §4.2 of the spec) says every lookup of a content
type absent from the static table fails; the code only fails on the first.
`__new__` caches the fresh instance and `__init__` sets `_loaded = True`
before checking the table, so the `KeyError` leaves a poisoned cache entry;
a second lookup of the same content type finds the cached instance, sees
`_loaded`, skips initialization and returns the half-initialized instance
(no attributes set) instead of raising. -/
theorem partTypeSpec_unknown_poisoned :
    (partTypeSpecCtor tblEx [] (some "ctBogus")).1 = .error .keyError ∧
    partTypeSpecCtor tblEx poisonedCacheEx (some "ctBogus")
      = (.ok { loaded := true, attrs := none }, poisonedCacheEx) :=
  ⟨rfl, rfl⟩

/-! ## Claim C6: duplicate rejection on insert -/

/-- C6: uniqueness is enforced on insert, with no partial insertion —
`PartCollection.loadpart` on a part name already indexed fails with
`DuplicateKeyError` and returns the collection unchanged (the membership
check precedes any mutation), and `RelationshipCollection.additem` on a
relationship whose local id is already indexed fails with
`DuplicateKeyError` and returns the collection unchanged. -/
theorem duplicate_inserts_rejected (tbl : SpecTables) (fs : ZipFS) (st : PCState)
    (partname : String) (ct : Option String) (rc : RelCollection) (rel_elm : Elem) :
    (pcContains st partname = true →
      pcLoadpart tbl fs st partname ct = (.error .duplicateKey, st)) ∧
    (dmem rc.id_dict (relFromElem rel_elm).rId = true →
      rc.additem rel_elm = (.error .duplicateKey, rc)) := by
  constructor
  · intro h
    simp [pcLoadpart, pcContains] at h ⊢
    simp [h]
  · intro h
    simp [RelCollection.additem, h]

/-- A stub part used by concrete collection fixtures. -/
def partStub : Part :=
  { partname := "/a.xml"
    typespec :=
      { content_type := some "ctP", basename := "presentation", ext := ".xml",
        cardinality := "single", required := true, baseURI := "/ppt",
        has_rels := "optional", rel_type := "rtP", loadclass := none }
    element := none
    blob := none
    relsitem := none }

/-- C6 witness: both rejections at concrete collections already holding
the key being re-inserted. -/
theorem duplicate_inserts_rejected_witness :
    pcLoadpart tblEx origZip ⟨[partStub], [("/a.xml", partStub)]⟩ "/a.xml" (some "ctP")
      = (.error .duplicateKey, ⟨[partStub], [("/a.xml", partStub)]⟩) ∧
    RelCollection.additem
        ⟨[⟨some "rId1", some "rt", some "tg"⟩], [(some "rId1", ⟨some "rId1", some "rt", some "tg"⟩)]⟩
        (Elem.mk "Relationship" [("Id", "rId1")] [])
      = (.error .duplicateKey,
         ⟨[⟨some "rId1", some "rt", some "tg"⟩], [(some "rId1", ⟨some "rId1", some "rt", some "tg"⟩)]⟩) := by
  constructor
  · exact (duplicate_inserts_rejected tblEx origZip _ "/a.xml" (some "ctP")
      rcEmpty (Elem.mk "Relationship" [] [])).1 (by rfl)
  · exact (duplicate_inserts_rejected tblEx origZip pcEmpty "" none
      _ (Elem.mk "Relationship" [("Id", "rId1")] [])).2 (by rfl)

/-! ## Claim C3: save and existing targets -/

/-- A second well-formed one-part package (different part name), used to
demonstrate that a later save replaces the archive of an earlier one. -/
def origZip2 : ZipFS :=
  ⟨[("[Content_Types].xml", .xml (Elem.mk (qname "ct" "Types") []
      [Elem.mk (qname "ct" "Default")
        [("Extension", "rels"), ("ContentType", "ctRels")] [],
       Elem.mk (qname "ct" "Default")
        [("Extension", "xml"), ("ContentType", "ctXml")] [],
       Elem.mk (qname "ct" "Override")
        [("PartName", "/ppt/pres2.xml"), ("ContentType", "ctP")] []])),
    ("_rels/.rels", .xml (Elem.mk (qname "pr" "Relationships") []
      [Elem.mk (qname "pr" "Relationship")
        [("Id", "rId1"), ("Type", "rtP"), ("Target", "ppt/pres2.xml")] []])),
    ("ppt/pres2.xml", .xml (Elem.mk "p:pres2" [] []))]⟩

/-- The package loaded from the example archive. -/
def pkgOrig : PackageM :=
  match packageOpen tblEx diskEx "/orig.pptx" with
  | .ok p => p
  | .error _ => ⟨pcEmpty, none⟩

/-- The package loaded from the second example archive. -/
def pkgOrig2 : PackageM :=
  match packageOpen tblEx [("/orig2.pptx", origZip2)] "/orig2.pptx" with
  | .ok p => p
  | .error _ => ⟨pcEmpty, none⟩

/-- The disk after a first successful `save` of `pkgOrig` at `/out`. -/
def diskAfterFirstSave : Disk := (packageSave tblEx pkgOrig "/out" []).2

/-- C3 counterexample: the claim says a second `save` to a location already
holding an archive from a prior successful save fails with `DuplicateItem`
semantics instead of replacing it.  In the code, `ZipFileSystem.new()`
truncates any existing file (as its own docstring states), so the second
save succeeds and the archive at `/out.pptx` afterwards holds the second
package's members, not the first's. -/
theorem packageSave_overwrite_cex :
    (packageSave tblEx pkgOrig "/out" []).1 = .ok () ∧
    (diskGet diskAfterFirstSave "/out.pptx").map zipNames
      = some ["[Content_Types].xml", "_rels/.rels", "ppt/presentation.xml"] ∧
    (packageSave tblEx pkgOrig2 "/out" diskAfterFirstSave).1 = .ok () ∧
    (diskGet (packageSave tblEx pkgOrig2 "/out" diskAfterFirstSave).2 "/out.pptx").map zipNames
      = some ["[Content_Types].xml", "_rels/.rels", "ppt/pres2.xml"] :=
  ⟨rfl, rfl, rfl, rfl⟩

/-- `diskSet` followed by `diskGet` at the same location sees the stored
archive. -/
theorem diskGet_diskSet_self (d : Disk) (path : String) (z : ZipFS) :
    diskGet (diskSet d path z) path = some z := by
  unfold diskGet diskSet
  exact dget_append_single_same d path z

/-- C3 (amended): `Package.save(location)` never consults the prior disk
contents of the (suffix-normalized) target location: its outcome and the
archive it leaves there are identical whatever was previously stored, so an
existing archive from a prior save is silently truncated and replaced.
`DuplicateItem` (`DuplicateKeyError`) semantics apply only within a single
save session: writing an item path already present in the session's own
archive fails and leaves that archive unchanged. -/
theorem packageSave_truncates (tbl : SpecTables) (pkg : PackageM) (path : String)
    (d₁ d₂ : Disk) :
    (packageSave tbl pkg path d₁).1 = (packageSave tbl pkg path d₂).1 ∧
    diskGet (packageSave tbl pkg path d₁).2 (normalizedpath path)
      = diskGet (packageSave tbl pkg path d₂).2 (normalizedpath path) ∧
    (∀ (z : ZipFS) (e : Elem) (u : String), z.containsURI u = true →
      z.write_element e u = (.error .duplicateKey, z)) ∧
    (∀ (z : ZipFS) (b : Bytes) (u : String), z.containsURI u = true →
      z.write_blob b u = (.error .duplicateKey, z)) := by
  refine ⟨rfl, ?_, ?_, ?_⟩
  · show diskGet (diskSet d₁ (normalizedpath path) (packageSaveArchive tbl pkg).2)
        (normalizedpath path)
      = diskGet (diskSet d₂ (normalizedpath path) (packageSaveArchive tbl pkg).2)
        (normalizedpath path)
    rw [diskGet_diskSet_self, diskGet_diskSet_self]
  · intro z e u h
    simp [ZipFS.write_element, h]
  · intro z b u h
    simp [ZipFS.write_blob, h]

/-- C3 witness: the amended behaviour at concrete inputs — a save over a
non-empty disk equals a save over the empty disk at the target location,
and an in-session duplicate write is rejected. -/
theorem packageSave_truncates_witness :
    diskGet (packageSave tblEx pkgOrig "/out" diskAfterFirstSave).2 "/out.pptx"
      = diskGet (packageSave tblEx pkgOrig "/out" []).2 "/out.pptx" ∧
    ZipFS.write_element ⟨[("a.xml", .blob [])]⟩ (Elem.mk "t" [] []) "/a.xml"
      = (.error .duplicateKey, ⟨[("a.xml", .blob [])]⟩) := by
  constructor
  · have h := (packageSave_truncates tblEx pkgOrig "/out" diskAfterFirstSave []).2.1
    simpa using h
  · exact (packageSave_truncates tblEx pkgOrig "/out" [] []).2.2.1
      ⟨[("a.xml", .blob [])]⟩ (Elem.mk "t" [] []) "/a.xml" (by rfl)

/-! ## Claim C7: the `PartTypeSpec` cache -/

/-- Lookup in a singleton dictionary. -/
theorem dget_single {α β : Type} [DecidableEq α] (k k' : α) (v : β) :
    dget [(k, v)] k' = if k' = k then some v else none := by
  by_cases h : k' = k <;> simp [dget, dgetAux, h]

/-- A healthy `PartTypeSpec` cache: every cached instance has completed
initialization (its content type is in the static table and its attributes
are set from the table row).  This holds for the empty cache and is
preserved by every successful construction; only a failed lookup (claim C8)
breaks it. -/
def cacheWF (tbl : SpecTables) (c : PTSCache) : Prop :=
  ∀ k s, dget c k = some s →
    s.loaded = true ∧ ∃ a, ptsLookup tbl k = .ok a ∧ s.attrs = some a

/-- On a healthy cache, the stateful `PartTypeSpec` constructor computes
the pure table lookup `ptsLookup` (this justifies the package loader's use
of the pure view). -/
theorem partTypeSpecCtor_pure (tbl : SpecTables) (c : PTSCache) (ct : Option String)
    (hwf : cacheWF tbl c) :
    (partTypeSpecCtor tbl c ct).1
      = (ptsLookup tbl ct).map (fun a => ⟨true, some a⟩) := by
  cases hdg : dget c ct with
  | some s =>
    obtain ⟨hl, a, hok, hattrs⟩ := hwf ct s hdg
    cases s with
    | mk loaded attrs =>
      simp only at hl hattrs
      subst hl hattrs
      simp [partTypeSpecCtor, hdg, hok, Except.map]
  | none =>
    cases ct with
    | none => simp [partTypeSpecCtor, hdg, ptsLookup, Except.map]
    | some cts =>
      cases hrow : dget tbl.pml_parttypes cts with
      | none => simp [partTypeSpecCtor, hdg, hrow, ptsLookup, Except.map]
      | some row => simp [partTypeSpecCtor, hdg, hrow, ptsLookup, Except.map]

/-- After a successful construction, the cache maps the content type to the
returned instance. -/
theorem partTypeSpecCtor_cache_lookup (tbl : SpecTables) (c : PTSCache)
    (ct : Option String) (s : PTSpec) (c₁ : PTSCache)
    (h : partTypeSpecCtor tbl c ct = (.ok s, c₁)) : dget c₁ ct = some s := by
  cases hdg : dget c ct with
  | some s₀ =>
    by_cases hl : s₀.loaded
    · simp [partTypeSpecCtor, hdg, hl] at h
      rw [← h.2, hdg, h.1]
    · cases ct with
      | none => simp [partTypeSpecCtor, hdg, hl] at h
      | some cts =>
        cases hrow : dget tbl.pml_parttypes cts with
        | none => simp [partTypeSpecCtor, hdg, hl, hrow] at h
        | some row =>
          simp [partTypeSpecCtor, hdg, hl, hrow, cacheSet] at h
          rw [← h.2, ← h.1]
          rw [dget_append]
          simp [dget, dgetAux]
  | none =>
    cases ct with
    | none => simp [partTypeSpecCtor, hdg] at h
    | some cts =>
      cases hrow : dget tbl.pml_parttypes cts with
      | none => simp [partTypeSpecCtor, hdg, hrow] at h
      | some row =>
        simp [partTypeSpecCtor, hdg, hrow, cacheSet] at h
        rw [← h.2, ← h.1]
        rw [dget_append]
        simp [dget, dgetAux]

/-- A successful construction preserves cache health. -/
theorem partTypeSpecCtor_wf (tbl : SpecTables) (c : PTSCache) (ct : Option String)
    (hwf : cacheWF tbl c) (a : PTSAttrs) (hok : ptsLookup tbl ct = .ok a) :
    cacheWF tbl (partTypeSpecCtor tbl c ct).2 := by
  cases hdg : dget c ct with
  | some s₀ =>
    have hl := (hwf ct s₀ hdg).1
    simp [partTypeSpecCtor, hdg, hl]
    exact hwf
  | none =>
    cases ct with
    | none => simp [ptsLookup] at hok
    | some cts =>
      cases hrow : dget tbl.pml_parttypes cts with
      | none => simp [ptsLookup, hrow] at hok
      | some row =>
        simp only [ptsLookup, hrow] at hok
        injection hok with hok
        intro k s hk
        have h2 : (partTypeSpecCtor tbl c (some cts)).2
            = c ++ [(some cts, ⟨false, none⟩), (some cts, ⟨true, none⟩),
                    (some cts, ⟨true, some (mkPTSAttrs tbl (some cts) row)⟩)] := by
          simp [partTypeSpecCtor, hdg, hrow, cacheSet]
        rw [h2, dget_append] at hk
        by_cases hkc : k = some cts
        · subst hkc
          simp [dget, dgetAux] at hk
          subst hk
          exact ⟨rfl, a, by simp [ptsLookup, hrow, hok], by simp [hok]⟩
        · have hL : dget [(some cts, (⟨false, none⟩ : PTSpec)), (some cts, ⟨true, none⟩),
              (some cts, ⟨true, some (mkPTSAttrs tbl (some cts) row)⟩)] k = none := by
            simp [dget, dgetAux, hkc]
          rw [hL] at hk
          simp only [Option.or] at hk
          exact hwf k s hk

/-- C7: for a content type registered in the static format table,
construction is idempotent and identity-preserving — provided the cache
entry for that content type (if any) is healthy, which holds for the
lifetime of any process, since entries for registered content types are
only ever created fully initialized (only a *failed* lookup of an
*unregistered* content type poisons its own entry, claim C8).  The first
construction returns the instance carrying the table row's attributes; a
second construction returns the *same* cached instance with the cache (and
hence the instance's attributes) unchanged; and the value-keyed cache keeps
at most one instance per distinct content-type value (lookups are
determined by the key, and a repeat construction adds no cache entry). -/
theorem partTypeSpecCtor_idempotent (tbl : SpecTables) (c : PTSCache) (ct : String)
    (row : PartTypeRow)
    (hwf : ∀ s, dget c (some ct) = some s →
      s = ⟨true, some (mkPTSAttrs tbl (some ct) row)⟩)
    (hreg : dget tbl.pml_parttypes ct = some row) :
    ∀ s c₁, partTypeSpecCtor tbl c (some ct) = (.ok s, c₁) →
      s = ⟨true, some (mkPTSAttrs tbl (some ct) row)⟩ ∧
      partTypeSpecCtor tbl c₁ (some ct) = (.ok s, c₁) ∧
      dget c₁ (some ct) = some s := by
  intro s c₁ hctor
  cases hdg : dget c (some ct) with
  | some s₀ =>
    have hs₀ := hwf s₀ hdg
    have hl : s₀.loaded = true := by rw [hs₀]
    simp [partTypeSpecCtor, hdg, hl] at hctor
    obtain ⟨h1, h2⟩ := hctor
    subst h2
    refine ⟨h1 ▸ hs₀, ?_, by rw [hdg, h1]⟩
    have hl2 : s.loaded = true := by rw [← h1]; exact hl
    simp [partTypeSpecCtor, hdg, h1, hl2]
  | none =>
    simp [partTypeSpecCtor, hdg, hreg, cacheSet] at hctor
    obtain ⟨h1, h2⟩ := hctor
    have hlk : dget c₁ (some ct) = some s := by
      rw [← h2, ← h1]
      rw [show c ++ [(some ct, (⟨false, none⟩ : PTSpec)), (some ct, ⟨true, none⟩),
            (some ct, ⟨true, some (mkPTSAttrs tbl (some ct) row)⟩)]
          = c ++ [(some ct, (⟨false, none⟩ : PTSpec)), (some ct, ⟨true, none⟩)]
            ++ [(some ct, ⟨true, some (mkPTSAttrs tbl (some ct) row)⟩)] from by simp,
        dget_append_single_same]
    have hl : s.loaded = true := by rw [← h1]
    refine ⟨h1.symm, ?_, hlk⟩
    simp [partTypeSpecCtor, hlk, hl]

/-- C7 witness: idempotence at the concrete example table — the second
construction of `ctP` returns the same instance and leaves the cache
unchanged. -/
theorem partTypeSpecCtor_idempotent_witness :
    partTypeSpecCtor tblEx (partTypeSpecCtor tblEx [] (some "ctP")).2 (some "ctP")
      = (.ok ⟨true, some (mkPTSAttrs tblEx (some "ctP")
          { basename := "presentation", ext := ".xml", cardinality := "single",
            required := true, baseURI := "/ppt", has_rels := "optional",
            rel_type := "rtP" })⟩,
         (partTypeSpecCtor tblEx [] (some "ctP")).2) := by
  have h := partTypeSpecCtor_idempotent tblEx [] "ctP"
    { basename := "presentation", ext := ".xml", cardinality := "single",
      required := true, baseURI := "/ppt", has_rels := "optional",
      rel_type := "rtP" }
    (fun s hk => by simp [dget, dgetAux] at hk) (by rfl)
    ⟨true, some (mkPTSAttrs tblEx (some "ctP")
      { basename := "presentation", ext := ".xml", cardinality := "single",
        required := true, baseURI := "/ppt", has_rels := "optional",
        rel_type := "rtP" })⟩
    (partTypeSpecCtor tblEx [] (some "ctP")).2 (by rfl)
  exact h.2.1

/-! ## Claim C5: relationship-requirement tri-state -/

/-- Whether an `Except` result is a success. -/
def isOkE {α : Type} : Except PErr α → Bool
  | .ok _ => true
  | .error _ => false

/-- `Part.load` unfolded for an XML-format part whose body read
succeeds. -/
theorem partLoad_eq_xml (tbl : SpecTables) (fs : ZipFS) (partname : String)
    (ct : Option String) (a : PTSAttrs) (el : Elem)
    (hts : ptsLookup tbl ct = .ok a) (hfmt : a.format = "xml")
    (hE : fs.getelement partname = .ok el) :
    partLoad tbl fs partname ct =
      (match relsitemURI a partname fs with
       | none => .ok ⟨partname, a, some el, none, none⟩
       | some u =>
         if ¬ fs.containsURI u then .error .corruptedPackage
         else
           match partRelsItemLoad partname fs u with
           | .error e => .error e
           | .ok ri => .ok ⟨partname, a, some el, none, some ri⟩) := by
  simp [partLoad, hts, hfmt, hE]

/-- `Part.load` unfolded for a binary-format part whose body read
succeeds. -/
theorem partLoad_eq_binary (tbl : SpecTables) (fs : ZipFS) (partname : String)
    (ct : Option String) (a : PTSAttrs) (b : Bytes)
    (hts : ptsLookup tbl ct = .ok a) (hfmt : ¬ a.format = "xml")
    (hB : fs.getstream partname = .ok b) :
    partLoad tbl fs partname ct =
      (match relsitemURI a partname fs with
       | none => .ok ⟨partname, a, none, some b, none⟩
       | some u =>
         if ¬ fs.containsURI u then .error .corruptedPackage
         else
           match partRelsItemLoad partname fs u with
           | .error e => .error e
           | .ok ri => .ok ⟨partname, a, none, some b, some ri⟩) := by
  simp [partLoad, hts, hfmt, hB]

/-- C5: the companion relationship item is handled per the part type's
`has_rels` tri-state.  With the part body readable: `'always'` with the
companion item absent fails with `CorruptedPackageError`; `'never'`
computes no relationship-item URI at all (so none is ever read) and loads
with `relationships = None`; `'optional'` loads with `relationships = None`
when the companion is absent, and attaches the relationships parsed from
exactly the companion URI when present. -/
theorem partLoad_has_rels (tbl : SpecTables) (fs : ZipFS) (partname : String)
    (ct : Option String) (a : PTSAttrs)
    (hts : ptsLookup tbl ct = .ok a)
    (hbody : (if a.format = "xml" then isOkE (fs.getelement partname)
              else isOkE (fs.getstream partname)) = true) :
    (a.has_rels = "always" → fs.containsURI (companionRelsURI partname) = false →
      partLoad tbl fs partname ct = .error .corruptedPackage) ∧
    (a.has_rels = "never" →
      relsitemURI a partname fs = none ∧
      ∀ p, partLoad tbl fs partname ct = .ok p → p.relationships = none) ∧
    (a.has_rels = "optional" →
      (fs.containsURI (companionRelsURI partname) = false →
        relsitemURI a partname fs = none ∧
        ∀ p, partLoad tbl fs partname ct = .ok p → p.relationships = none) ∧
      (fs.containsURI (companionRelsURI partname) = true →
        ∀ rc, relsItemLoad fs (companionRelsURI partname) = .ok rc →
          ∀ p, partLoad tbl fs partname ct = .ok p →
            p.relsitem = some ⟨(posixSplit partname).1, companionRelsURI partname, rc⟩)) := by
  have hcases : (a.format = "xml" ∧ ∃ el, fs.getelement partname = .ok el) ∨
      (¬ a.format = "xml" ∧ ∃ b, fs.getstream partname = .ok b) := by
    by_cases hfmt : a.format = "xml"
    · rw [if_pos hfmt] at hbody
      cases hE : fs.getelement partname with
      | ok el => exact .inl ⟨hfmt, el, rfl⟩
      | error e => rw [hE] at hbody; simp [isOkE] at hbody
    · rw [if_neg hfmt] at hbody
      cases hB : fs.getstream partname with
      | ok b => exact .inr ⟨hfmt, b, rfl⟩
      | error e => rw [hB] at hbody; simp [isOkE] at hbody
  have key : ∀ (mk : Option PartRelsItem → Part),
      (∀ o, (mk o).relsitem = o) →
      (partLoad tbl fs partname ct =
        (match relsitemURI a partname fs with
         | none => .ok (mk none)
         | some u =>
           if ¬ fs.containsURI u then .error .corruptedPackage
           else
             match partRelsItemLoad partname fs u with
             | .error e => .error e
             | .ok ri => .ok (mk (some ri)))) →
      (a.has_rels = "always" → fs.containsURI (companionRelsURI partname) = false →
        partLoad tbl fs partname ct = .error .corruptedPackage) ∧
      (a.has_rels = "never" →
        relsitemURI a partname fs = none ∧
        ∀ p, partLoad tbl fs partname ct = .ok p → p.relationships = none) ∧
      (a.has_rels = "optional" →
        (fs.containsURI (companionRelsURI partname) = false →
          relsitemURI a partname fs = none ∧
          ∀ p, partLoad tbl fs partname ct = .ok p → p.relationships = none) ∧
        (fs.containsURI (companionRelsURI partname) = true →
          ∀ rc, relsItemLoad fs (companionRelsURI partname) = .ok rc →
            ∀ p, partLoad tbl fs partname ct = .ok p →
              p.relsitem = some ⟨(posixSplit partname).1, companionRelsURI partname, rc⟩)) := by
    intro mk hmk hpl
    refine ⟨?_, ?_, ?_⟩
    · intro hr hcont
      have hu : relsitemURI a partname fs = some (companionRelsURI partname) := by
        simp [relsitemURI, hr]
      rw [hpl, hu]
      simp [hcont]
    · intro hr
      have hu : relsitemURI a partname fs = none := by simp [relsitemURI, hr]
      refine ⟨hu, ?_⟩
      intro p hp
      rw [hpl, hu] at hp
      simp only [Except.ok.injEq] at hp
      rw [← hp, Part.relationships, hmk]
      rfl
    · intro hr
      constructor
      · intro hcont
        have hu : relsitemURI a partname fs = none := by
          simp [relsitemURI, hr, hcont]
        refine ⟨hu, ?_⟩
        intro p hp
        rw [hpl, hu] at hp
        simp only [Except.ok.injEq] at hp
        rw [← hp, Part.relationships, hmk]
        rfl
      · intro hcont rc hrc p hp
        have hu : relsitemURI a partname fs = some (companionRelsURI partname) := by
          simp [relsitemURI, hr, hcont]
        rw [hpl, hu] at hp
        simp only [hcont, Bool.not_true, Bool.false_eq_true, if_false] at hp
        rw [partRelsItemLoad, hrc] at hp
        simp at hp
        rw [← hp, hmk]
  rcases hcases with ⟨hfmt, el, hE⟩ | ⟨hfmt, b, hB⟩
  · exact key (fun o => ⟨partname, a, some el, none, o⟩) (fun o => rfl)
      (partLoad_eq_xml tbl fs partname ct a el hts hfmt hE)
  · exact key (fun o => ⟨partname, a, none, some b, o⟩) (fun o => rfl)
      (partLoad_eq_binary tbl fs partname ct a b hts hfmt hB)

/-- Example tables with one part type per `has_rels` value. -/
def tblTri : SpecTables :=
  { pml_parttypes :=
      [("ctA", { basename := "a", ext := ".xml", cardinality := "single",
                 required := true, baseURI := "/p", has_rels := "always",
                 rel_type := "rtA" }),
       ("ctN", { basename := "n", ext := ".xml", cardinality := "single",
                 required := true, baseURI := "/p", has_rels := "never",
                 rel_type := "rtN" }),
       ("ctO", { basename := "o", ext := ".xml", cardinality := "single",
                 required := true, baseURI := "/p", has_rels := "optional",
                 rel_type := "rtO" })]
    default_content_types := [(".rels", "ctRels"), (".xml", "ctXml")]
    loadclassmap := []
    defloadclass := none }

/-- Example archive for the tri-state witness: four parts, with a
companion rels item only for `o2.xml`. -/
def fsTri : ZipFS :=
  ⟨[("p/a.xml", .xml (Elem.mk "x:a" [] [])),
    ("p/n.xml", .xml (Elem.mk "x:n" [] [])),
    ("p/o.xml", .xml (Elem.mk "x:o" [] [])),
    ("p/o2.xml", .xml (Elem.mk "x:o2" [] [])),
    ("p/_rels/o2.xml.rels", .xml (Elem.mk (qname "pr" "Relationships") []
      [Elem.mk (qname "pr" "Relationship")
        [("Id", "rId1"), ("Type", "rtO"), ("Target", "a.xml")] []]))]⟩

/-- The part loaded for `n.xml` (has_rels `'never'`). -/
def partNEx : Part :=
  match partLoad tblTri fsTri "/p/n.xml" (some "ctN") with
  | .ok p => p
  | .error _ => partStub

/-- The part loaded for `o.xml` (has_rels `'optional'`, companion absent). -/
def partOEx : Part :=
  match partLoad tblTri fsTri "/p/o.xml" (some "ctO") with
  | .ok p => p
  | .error _ => partStub

/-- The part loaded for `o2.xml` (has_rels `'optional'`, companion
present). -/
def partO2Ex : Part :=
  match partLoad tblTri fsTri "/p/o2.xml" (some "ctO") with
  | .ok p => p
  | .error _ => partStub

/-- The relationship collection parsed from `o2.xml`'s companion item. -/
def rcO2Ex : RelCollection :=
  match relsItemLoad fsTri "/p/_rels/o2.xml.rels" with
  | .ok rc => rc
  | .error _ => rcEmpty

/-- C5 witness: the tri-state behaviour at concrete parts — `'always'`
with companion absent raises `CorruptedPackageError`; `'never'` and
`'optional'`-absent load with no relationships; `'optional'`-present
attaches the companion's parsed collection. -/
theorem partLoad_has_rels_witness :
    partLoad tblTri fsTri "/p/a.xml" (some "ctA") = .error .corruptedPackage ∧
    (partLoad tblTri fsTri "/p/n.xml" (some "ctN")).map Part.relationships
      = .ok none ∧
    (partLoad tblTri fsTri "/p/o.xml" (some "ctO")).map Part.relationships
      = .ok none ∧
    (partLoad tblTri fsTri "/p/o2.xml" (some "ctO")).map Part.relsitem
      = .ok (some ⟨"/p", "/p/_rels/o2.xml.rels", rcO2Ex⟩) := by
  refine ⟨?_, ?_, ?_, ?_⟩
  · exact (partLoad_has_rels tblTri fsTri "/p/a.xml" (some "ctA") _ rfl rfl).1 rfl rfl
  · have hv : partLoad tblTri fsTri "/p/n.xml" (some "ctN") = .ok partNEx := rfl
    have h := ((partLoad_has_rels tblTri fsTri "/p/n.xml" (some "ctN") _ rfl rfl).2.1
      rfl).2 partNEx hv
    rw [hv, Except.map, h]
  · have hv : partLoad tblTri fsTri "/p/o.xml" (some "ctO") = .ok partOEx := rfl
    have h := (((partLoad_has_rels tblTri fsTri "/p/o.xml" (some "ctO") _ rfl rfl).2.2
      rfl).1 rfl).2 partOEx hv
    rw [hv, Except.map, h]
  · have hv : partLoad tblTri fsTri "/p/o2.xml" (some "ctO") = .ok partO2Ex := rfl
    have h := (((partLoad_has_rels tblTri fsTri "/p/o2.xml" (some "ctO") _ rfl rfl).2.2
      rfl).2 rfl) rcO2Ex rfl partO2Ex hv
    rw [hv, Except.map, h]
    rfl

/-! ## Claim C9: relationship target resolution -/

/-- One `normpath` step over an absolute path neither keeps nor creates
`''`/`'.'`/`'..'` components. -/
theorem normStep_clean (comps : List String) (comp : String)
    (h : ∀ c ∈ comps, ¬ (c = "" ∨ c = "." ∨ c = "..")) :
    ∀ c ∈ normStep true comps comp, ¬ (c = "" ∨ c = "." ∨ c = "..") := by
  intro c hc
  unfold normStep at hc
  by_cases h1 : comp = "" ∨ comp = "."
  · rw [if_pos h1] at hc
    exact h c hc
  · rw [if_neg h1] at hc
    by_cases h2 : comp ≠ ".." ∨ (¬ (true : Bool) ∧ comps = []) ∨ comps.head? = some ".."
    · rw [if_pos h2] at hc
      rw [List.mem_cons] at hc
      rcases hc with rfl | hc
      · rcases h2 with h2 | h2 | h2
        · push_neg at h1
          simp [h1.1, h1.2, h2]
        · simp at h2
        · cases comps with
          | nil => simp at h2
          | cons c0 cs =>
            simp at h2
            have := h c0 (by simp)
            simp [h2] at this
      · exact h c hc
    · rw [if_neg h2] at hc
      cases comps with
      | nil => simp at hc
      | cons c0 cs => exact h c (List.mem_cons_of_mem c0 hc)

/-- The component list `normpath` produces for an absolute path contains no
`''`, `'.'` or `'..'` component: normalization eliminates all dot
segments. -/
theorem normComps_clean (comps : List String) :
    ∀ c ∈ normComps true comps, ¬ (c = "" ∨ c = "." ∨ c = "..") := by
  have key : ∀ (l : List String) (acc : List String),
      (∀ c ∈ acc, ¬ (c = "" ∨ c = "." ∨ c = "..")) →
      ∀ c ∈ l.foldl (normStep true) acc, ¬ (c = "" ∨ c = "." ∨ c = "..") := by
    intro l
    induction l with
    | nil => intro acc hacc; simpa using hacc
    | cons x xs ih =>
      intro acc hacc
      exact ih (normStep true acc x) (normStep_clean acc x hacc)
  intro c hc
  rw [normComps, List.mem_reverse] at hc
  exact key comps [] (by simp) c hc

/-- Appending preserves a leading slash. -/
theorem strStartsWith_append (a b : String) (h : strStartsWith a "/" = true) :
    strStartsWith (a ++ b) "/" = true := by
  cases a with
  | mk data =>
    cases data with
    | nil => simp [strStartsWith, List.isPrefixOf] at h
    | cons c cs =>
      simp [strStartsWith, List.isPrefixOf] at h ⊢
      simpa [String.data] using h

/-- C9: a relationship's target resolves to the absolute item path obtained
by joining the owner's base directory with the relative target
(`os.path.join`) and normalizing (`os.path.abspath` = `normpath` on these
absolute inputs, which eliminates all `'.'`/`'..'` segments): the package
relationships item's base directory is the package root `'/'`, a part
relationships item's base directory is the directory portion of the owning
part's item path, joining an absolute base keeps the result absolute, and
in particular the spec's slide-layout example resolves as stated. -/
theorem relationship_target_resolution (base t : String) (r : Rel)
    (ht : r.target = some t) (partname itemURI : String) (fs : ZipFS) :
    r.targetPartname base = .ok (posixNormpath (posixJoin base t)) ∧
    pkgRelsBaseURI = "/" ∧
    (∀ ri, partRelsItemLoad partname fs itemURI = .ok ri →
      ri.baseURI = (posixSplit partname).1) ∧
    (strStartsWith base "/" = true →
      strStartsWith (posixJoin base t) "/" = true) ∧
    (∀ c ∈ normComps true (strSplitSlash (posixJoin base t)),
      ¬ (c = "" ∨ c = "." ∨ c = "..")) ∧
    Rel.targetPartname "/ppt/slides"
        ⟨some "rId2", some "rt", some "../slideLayouts/slideLayout1.xml"⟩
      = .ok "/ppt/slideLayouts/slideLayout1.xml" := by
  refine ⟨?_, rfl, ?_, ?_, normComps_clean _, rfl⟩
  · simp [Rel.targetPartname, ht, posixAbspath]
  · intro ri h
    cases hrc : relsItemLoad fs itemURI with
    | ok rc =>
      rw [partRelsItemLoad, hrc] at h
      injection h with h
      rw [← h]
    | error e => rw [partRelsItemLoad, hrc] at h; cases h
  · intro hb
    unfold posixJoin
    by_cases h1 : strStartsWith t "/" = true
    · rw [if_pos h1]; exact h1
    · rw [if_neg h1]
      by_cases h2 : base = "" ∨ strEndsWith base "/" = true
      · rw [if_pos h2]
        exact strStartsWith_append base t hb
      · rw [if_neg h2]
        exact strStartsWith_append _ t (strStartsWith_append base "/" hb)

/-- C9 witness: the resolution facts at concrete inputs (the slide-layout
example and a loaded part relationships item's base directory). -/
theorem relationship_target_resolution_witness :
    Rel.targetPartname "/ppt/slides"
        ⟨some "rId2", some "rt", some "../slideLayouts/slideLayout1.xml"⟩
      = .ok "/ppt/slideLayouts/slideLayout1.xml" ∧
    (⟨"/p", "/p/_rels/o2.xml.rels", rcO2Ex⟩ : PartRelsItem).baseURI
      = (posixSplit "/p/o2.xml").1 := by
  constructor
  · exact (relationship_target_resolution "/ppt/slides"
      "../slideLayouts/slideLayout1.xml"
      ⟨some "rId2", some "rt", some "../slideLayouts/slideLayout1.xml"⟩ rfl
      "/p/o2.xml" "/p/_rels/o2.xml.rels" fsTri).2.2.2.2.2
  · exact (relationship_target_resolution "/ppt/slides"
      "../slideLayouts/slideLayout1.xml"
      ⟨some "rId2", some "rt", some "../slideLayouts/slideLayout1.xml"⟩ rfl
      "/p/o2.xml" "/p/_rels/o2.xml.rels" fsTri).2.2.1
      ⟨"/p", "/p/_rels/o2.xml.rels", rcO2Ex⟩ rfl

/-! ## Claim C1: the save/open round trip -/

/-- The disk after saving the opened example package at `/saved`. -/
def savedDisk : Disk := (packageSave tblEx pkgOrig "/saved" diskEx).2

/-- C1: the round trip fails on every package with at least one
relationship, because saved relationship items are unreadable by the
loader.  `Relationship.element` creates its element with the bare tag
`'Relationship'` (no namespace), while `RelationshipsItem.load` searches
for children tagged `qname('pr', 'Relationship')` (namespace-qualified, as
real `.rels` files are).  Opening the example package loads its one part;
saving succeeds; but reopening the saved archive parses the saved
`/_rels/.rels` into an *empty* relationship collection (its `Relationship`
child does not match the qualified tag), so the graph walk loads no parts
at all — the reopened package's item-path set is empty, not equal to the
original's.  The spec's round-trip property is the clear intent (and the
code writes the `Relationships` *root* with the qualified name); the
unqualified child tag is the slip. -/
theorem roundTrip_loses_parts :
    roundTripKeys tblEx diskEx "/orig.pptx" "/saved"
      = .ok (["/ppt/presentation.xml"], []) ∧
    (packageOpen tblEx diskEx "/orig.pptx").map
        (fun p => p.relsitem.map (fun rc => rc.rels.length)) = .ok (some 1) ∧
    (packageOpen tblEx savedDisk "/saved.pptx").map
        (fun p => p.relsitem.map (fun rc => rc.rels.length)) = .ok (some 0) ∧
    (packageSave tblEx pkgOrig "/saved" diskEx).1 = .ok () ∧
    (diskGet savedDisk "/saved.pptx").map
        (fun z => z.getelement "/_rels/.rels")
      = some (.ok (Elem.mk (qname "pr" "Relationships") []
          [Elem.mk "Relationship"
            [("Id", "rId1"), ("Type", "rtP"), ("Target", "ppt/presentation.xml")] []])) :=
  ⟨rfl, rfl, rfl, rfl, rfl⟩

/-! ## Claim C2: graph-driven loading — supporting lemmas -/

/-- Duplicate-free copy of a string list (proof-side helper). -/
def dedupStr : List String → List String
  | [] => []
  | x :: xs => if x ∈ xs then dedupStr xs else x :: dedupStr xs

theorem mem_dedupStr (a : String) (l : List String) : a ∈ dedupStr l ↔ a ∈ l := by
  induction l with
  | nil => simp [dedupStr]
  | cons x xs ih =>
    by_cases h : x ∈ xs
    · simp only [dedupStr, if_pos h, ih, List.mem_cons]
      constructor
      · exact Or.inr
      · rintro (rfl | ha)
        · exact h
        · exact ha
    · simp [dedupStr, h, ih]

theorem nodup_dedupStr (l : List String) : (dedupStr l).Nodup := by
  induction l with
  | nil => simp [dedupStr]
  | cons x xs ih =>
    by_cases h : x ∈ xs
    · simpa [dedupStr, h] using ih
    · simp only [dedupStr, if_neg h, List.nodup_cons, mem_dedupStr]
      exact ⟨h, ih⟩

theorem orderedInsert_length {α : Type} (le : α → α → Bool) (x : α) (l : List α) :
    (orderedInsert le x l).length = l.length + 1 := by
  induction l with
  | nil => rfl
  | cons y ys ih =>
    unfold orderedInsert
    by_cases h : le x y
    · simp [h]
    · simp [h, ih]

theorem pySorted_length {α : Type} (le : α → α → Bool) (xs : List α) :
    (pySorted le xs).length = xs.length := by
  unfold pySorted
  induction xs with
  | nil => rfl
  | cons x xs ih =>
    simp only [List.foldr, orderedInsert_length, ih, List.length_cons]

theorem itemURIs_length_le (z : ZipFS) : z.itemURIs.length ≤ z.members.length := by
  unfold ZipFS.itemURIs
  rw [pySorted_length, List.length_map]
  calc ((z.members.map Prod.fst).filter (fun n => ¬ strEndsWith n "/")).length
      ≤ (z.members.map Prod.fst).length := List.length_filter_le _ _
    _ = z.members.length := List.length_map _ _

theorem dgetAux_isSome_iff {α β : Type} [DecidableEq α] (k : α) (d : List (α × β)) :
    (dgetAux k d).isSome = true ↔ k ∈ d.map Prod.fst := by
  induction d with
  | nil => simp [dgetAux]
  | cons hd tl ih =>
    obtain ⟨k', v⟩ := hd
    by_cases h : k = k' <;> simp [dgetAux, h, ih]

theorem dmem_iff_mem_keys {α β : Type} [DecidableEq α] (d : List (α × β)) (k : α) :
    dmem d k = true ↔ k ∈ d.map Prod.fst := by
  unfold dmem dget
  rw [dgetAux_isSome_iff]
  simp

/-- The item paths registered in the part collection's index. -/
theorem pcContains_iff (st : PCState) (pn : String) :
    pcContains st pn = true ↔ pn ∈ pcKeys st :=
  dmem_iff_mem_keys st.partname_dict pn

/-- A successful `getelement` implies archive membership. -/
theorem getelement_contains (z : ZipFS) (u : String) (e : Elem)
    (h : z.getelement u = .ok e) : z.containsURI u = true := by
  by_cases hc : z.containsURI u = true
  · exact hc
  · have hc' : z.containsURI u = false := by simpa using hc
    simp [ZipFS.getelement, hc'] at h

/-- A successful `getstream` implies archive membership. -/
theorem getstream_contains (z : ZipFS) (u : String) (b : Bytes)
    (h : z.getstream u = .ok b) : z.containsURI u = true := by
  by_cases hc : z.containsURI u = true
  · exact hc
  · have hc' : z.containsURI u = false := by simpa using hc
    simp [ZipFS.getstream, hc'] at h

/-- When `__relsitemURI` yields a URI, it is the companion URI. -/
theorem relsitemURI_eq (a : PTSAttrs) (pn : String) (fs : ZipFS) (u : String)
    (h : relsitemURI a pn fs = some u) : u = companionRelsURI pn := by
  unfold relsitemURI at h
  by_cases h1 : a.has_rels = "never"
  · simp [h1] at h
  · rw [if_neg h1] at h
    by_cases h2 : a.has_rels = "optional"
    · rw [if_pos h2] at h
      by_cases h3 : fs.containsURI (companionRelsURI pn) = true
      · simp [h3] at h
        exact h.symm
      · have h3' : fs.containsURI (companionRelsURI pn) = false := by simpa using h3
        simp [h3'] at h
    · rw [if_neg h2] at h
      injection h with h
      exact h.symm

/-- The relationship-item tail of `Part.load`, shared by both format
kinds: what a successful result says about the attached relationships
item. -/
theorem partLoad_relsitem_fields (fs : ZipFS) (pn : String) (a : PTSAttrs)
    (mk : Option PartRelsItem → Part) (hmk : ∀ o, (mk o).relsitem = o)
    (hmkname : ∀ o, (mk o).partname = pn) (part : Part)
    (h : (match relsitemURI a pn fs with
          | none => (.ok (mk none) : Except PErr Part)
          | some u =>
            if ¬ fs.containsURI u then .error .corruptedPackage
            else
              match partRelsItemLoad pn fs u with
              | .error e => .error e
              | .ok ri => .ok (mk (some ri))) = .ok part) :
    part.partname = pn ∧
    (∀ ri, part.relsitem = some ri →
      ri.baseURI = (posixSplit pn).1 ∧ ri.itemURI = companionRelsURI pn ∧
      relsItemLoad fs (companionRelsURI pn) = .ok ri.relationships) := by
  cases hru : relsitemURI a pn fs with
  | none =>
    rw [hru] at h
    injection h with h
    rw [← h]
    refine ⟨hmkname none, ?_⟩
    intro ri hri
    rw [hmk] at hri
    cases hri
  | some u =>
    have hue := relsitemURI_eq a pn fs u hru
    subst hue
    rw [hru] at h
    by_cases hcu : fs.containsURI (companionRelsURI pn) = true
    · cases hrl : relsItemLoad fs (companionRelsURI pn) with
      | error e => simp [hcu, partRelsItemLoad, hrl] at h
      | ok rc =>
        simp only [hcu, partRelsItemLoad, hrl] at h
        simp at h
        subst h
        refine ⟨hmkname _, ?_⟩
        intro ri hri
        rw [hmk] at hri
        injection hri with hri
        rw [← hri]
        exact ⟨rfl, rfl, rfl⟩
    · have hcu' : fs.containsURI (companionRelsURI pn) = false := by simpa using hcu
      simp [hcu'] at h

/-- The facts a successful `Part.load` guarantees: the part name is an
archive member, the loaded part records it, and any attached relationships
item was parsed from the companion URI (with the part's directory as base
URI). -/
theorem partLoad_fields (tbl : SpecTables) (fs : ZipFS) (pn : String)
    (ct : Option String) (part : Part) (h : partLoad tbl fs pn ct = .ok part) :
    fs.containsURI pn = true ∧ part.partname = pn ∧
    (∀ ri, part.relsitem = some ri →
      ri.baseURI = (posixSplit pn).1 ∧ ri.itemURI = companionRelsURI pn ∧
      relsItemLoad fs (companionRelsURI pn) = .ok ri.relationships) := by
  cases hts : ptsLookup tbl ct with
  | error e => simp [partLoad, hts] at h
  | ok a =>
    by_cases hfmt : a.format = "xml"
    · cases hE : fs.getelement pn with
      | error e => simp [partLoad, hts, hfmt, hE] at h
      | ok el =>
        rw [partLoad_eq_xml tbl fs pn ct a el hts hfmt hE] at h
        refine ⟨getelement_contains fs pn el hE, ?_⟩
        exact partLoad_relsitem_fields fs pn a
          (fun o => ⟨pn, a, some el, none, o⟩) (fun o => rfl) (fun o => rfl) part h
    · cases hB : fs.getstream pn with
      | error e => simp [partLoad, hts, hfmt, hB] at h
      | ok b =>
        rw [partLoad_eq_binary tbl fs pn ct a b hts hfmt hB] at h
        refine ⟨getstream_contains fs pn b hB, ?_⟩
        exact partLoad_relsitem_fields fs pn a
          (fun o => ⟨pn, a, none, some b, o⟩) (fun o => rfl) (fun o => rfl) part h

/-- What a successful `PartCollection.loadpart` guarantees: the part was
not yet registered, `Part.load` produced it, and both the list and the
index grew by exactly this part. -/
theorem pcLoadpart_ok (tbl : SpecTables) (fs : ZipFS) (st : PCState) (pn : String)
    (ct : Option String) (part : Part) (st' : PCState)
    (h : pcLoadpart tbl fs st pn ct = (.ok part, st')) :
    pcContains st pn = false ∧ partLoad tbl fs pn ct = .ok part ∧
    st'.partsList = st.partsList ++ [part] ∧
    st'.partname_dict = st.partname_dict ++ [(pn, part)] := by
  unfold pcLoadpart at h
  cases hd : dmem st.partname_dict pn with
  | true => simp [hd] at h
  | false =>
    cases hpl : partLoad tbl fs pn ct with
    | error e => simp [hd, hpl] at h
    | ok p =>
      simp [hd, hpl] at h
      obtain ⟨h1, h2⟩ := h
      refine ⟨hd, ?_, ?_, ?_⟩
      · rw [h1]
      · rw [← h2, h1]
      · rw [← h2, h1]

/-- Each loop step of `relsAddAll` appends at most one relationship. -/
theorem relsAddAll_length (elems : List Elem) :
    ∀ rc₀ rc, relsAddAll rc₀ elems = .ok rc →
      rc.rels.length ≤ rc₀.rels.length + elems.length := by
  induction elems with
  | nil =>
    intro rc₀ rc h
    injection h with h
    subst h
    simp
  | cons e es ih =>
    intro rc₀ rc h
    unfold relsAddAll RelCollection.additem at h
    cases hd : dmem rc₀.id_dict (relFromElem e).rId with
    | true => simp [hd] at h
    | false =>
      simp only [hd, Bool.false_eq_true, if_false] at h
      have := ih _ _ h
      simp at this
      simp
      omega

/-- A found binding belongs to the dictionary. -/
theorem dgetAux_mem {α β : Type} [DecidableEq α] (k : α) (v : β) :
    ∀ l : List (α × β), dgetAux k l = some v → (k, v) ∈ l := by
  intro l
  induction l with
  | nil => intro h; simp [dgetAux] at h
  | cons hd tl ih =>
    obtain ⟨k', v'⟩ := hd
    intro h
    by_cases hk : k = k'
    · simp [dgetAux, hk] at h
      subst hk
      subst h
      exact List.mem_cons_self _ _
    · simp [dgetAux, hk] at h
      exact List.mem_cons_of_mem _ (ih h)

theorem dget_mem {α β : Type} [DecidableEq α] (d : List (α × β)) (k : α) (v : β)
    (h : dget d k = some v) : (k, v) ∈ d := by
  rw [← List.mem_reverse]
  exact dgetAux_mem k v d.reverse h

/-- Mapped values are bounded by the sum of the mapped list. -/
theorem le_sum_of_mem_map {α : Type} (f : α → Nat) (l : List α) (a : α)
    (h : a ∈ l) : f a ≤ (l.map f).sum := by
  induction l with
  | nil => cases h
  | cons x xs ih =>
    rw [List.mem_cons] at h
    rcases h with rfl | h
    · simp
    · have := ih h
      simp
      omega

/-- A successful `getelement` read identifies the stored member. -/
theorem getelement_member (z : ZipFS) (u : String) (e : Elem)
    (h : z.getelement u = .ok e) :
    dget z.members (strDrop u 1) = some (.xml e) := by
  have hc := getelement_contains z u e h
  unfold ZipFS.getelement ZipFS.getstream at h
  cases hd : dget z.members (strDrop u 1) with
  | none => simp [hc, hd] at h
  | some item =>
    cases item with
    | blob b => simp [hc, hd] at h
    | xml e' =>
      simp [hc, hd] at h
      rw [h]

/-- The children of any XML member are bounded by `fsRelsBound`. -/
theorem getelement_children_le (z : ZipFS) (u : String) (e : Elem)
    (h : z.getelement u = .ok e) : e.children.length ≤ fsRelsBound z := by
  have hm := dget_mem _ _ _ (getelement_member z u e h)
  unfold fsRelsBound
  have := le_sum_of_mem_map
    (fun m => match m.2 with | .xml el => el.children.length | .blob _ => 0)
    z.members _ hm
  simpa using this

/-- Any relationship collection parsed out of the archive is bounded by
`fsRelsBound`. -/
theorem relsItemLoad_length (fs : ZipFS) (u : String) (rc : RelCollection)
    (h : relsItemLoad fs u = .ok rc) : rc.rels.length ≤ fsRelsBound fs := by
  unfold relsItemLoad at h
  cases hE : fs.getelement u with
  | error e => rw [hE] at h; cases h
  | ok element =>
    rw [hE] at h
    have h1 := relsAddAll_length _ _ _ h
    have h2 : (element.findall (qname "pr" "Relationship")).length
        ≤ element.children.length := List.length_filter_le _ _
    have h3 := getelement_children_le fs u element hE
    simp [rcEmpty] at h1
    omega

/-- The number of archive item paths not yet registered in the part
collection (the quantity the graph walk strictly decreases on every part
load). -/
def countNew (fs : ZipFS) (st : PCState) : Nat :=
  ((dedupStr fs.itemURIs).filter (fun p => ! pcContains st p)).length

theorem dedupStr_length_le (l : List String) : (dedupStr l).length ≤ l.length := by
  induction l with
  | nil => simp [dedupStr]
  | cons x xs ih =>
    by_cases h : x ∈ xs
    · simp only [dedupStr, if_pos h]
      calc (dedupStr xs).length ≤ xs.length := ih
        _ ≤ (x :: xs).length := by simp
    · simp only [dedupStr, if_neg h, List.length_cons]
      omega

theorem countNew_le (fs : ZipFS) (st : PCState) :
    countNew fs st ≤ fs.members.length :=
  calc countNew fs st ≤ (dedupStr fs.itemURIs).length := List.length_filter_le _ _
    _ ≤ fs.itemURIs.length := dedupStr_length_le _
    _ ≤ fs.members.length := itemURIs_length_le fs

theorem containsURI_iff (z : ZipFS) (u : String) :
    z.containsURI u = true ↔ u ∈ z.itemURIs := by
  unfold ZipFS.containsURI
  simp

/-- Registering one new part shifts one element out of the not-yet-loaded
filter. -/
theorem filter_length_succ (l : List String) :
    ∀ (A B : String → Bool) (pn : String), l.Nodup → pn ∈ l →
      (∀ p, B p = (A p || decide (p = pn))) → A pn = false →
      (l.filter (fun p => !A p)).length = (l.filter (fun p => !B p)).length + 1 := by
  induction l with
  | nil => intro A B pn _ hmem; cases hmem
  | cons x xs ih =>
    intro A B pn hnd hmem hB hA
    rw [List.nodup_cons] at hnd
    rw [List.mem_cons] at hmem
    rcases hmem with rfl | hmem
    · have hBpn : B pn = true := by rw [hB]; simp
      rw [List.filter_cons, List.filter_cons]
      simp only [hA, hBpn, Bool.not_false, Bool.not_true, Bool.false_eq_true,
        if_true, if_false]
      have hcong : ∀ p ∈ xs, (!B p) = (!A p) := by
        intro p hp
        have hpn : ¬ (p = pn) := fun hc => hnd.1 (hc ▸ hp)
        rw [hB]
        simp [hpn]
      rw [List.filter_congr hcong]
      simp
    · have hx : ¬ (x = pn) := fun hc => hnd.1 (hc ▸ hmem)
      have hBx : B x = A x := by rw [hB]; simp [hx]
      rw [List.filter_cons, List.filter_cons, hBx]
      have ih' := ih A B pn hnd.2 hmem hB hA
      cases hAx : A x <;> simp [hAx, ih']

/-- Inserting a fresh, archive-resident part name decrements `countNew` by
exactly one. -/
theorem countNew_insert (fs : ZipFS) (st : PCState) (pn : String) (part : Part)
    (hc : pcContains st pn = false) (hm : fs.containsURI pn = true)
    (st' : PCState) (hd : st'.partname_dict = st.partname_dict ++ [(pn, part)]) :
    countNew fs st = countNew fs st' + 1 := by
  unfold countNew
  apply filter_length_succ (dedupStr fs.itemURIs) (fun p => pcContains st p)
    (fun p => pcContains st' p) pn (nodup_dedupStr _) ?_ ?_ hc
  · rw [mem_dedupStr]
    exact (containsURI_iff fs pn).mp hm
  · intro p
    unfold pcContains dmem
    rw [hd]
    show (dget (st.partname_dict ++ [(pn, part)]) p).isSome
      = ((dget st.partname_dict p).isSome || decide (p = pn))
    rw [dget_append, dget_single]
    by_cases hp : p = pn
    · subst hp
      simp
    · simp [hp]

/-- Filtering with a weaker exclusion keeps at least as few elements. -/
theorem filter_length_mono {α : Type} (l : List α) (p q : α → Bool)
    (h : ∀ a ∈ l, p a = true → q a = true) :
    (l.filter (fun a => !q a)).length ≤ (l.filter (fun a => !p a)).length := by
  induction l with
  | nil => simp
  | cons x xs ih =>
    have ih' := ih (fun a ha => h a (List.mem_cons_of_mem _ ha))
    rw [List.filter_cons, List.filter_cons]
    cases hq : q x with
    | true =>
      cases hp : p x with
      | true => simpa [hp, hq] using ih'
      | false => simp only [hp, hq, Bool.not_true, Bool.not_false,
          Bool.false_eq_true, if_false, if_true, List.length_cons]; omega
    | false =>
      have hp : p x = false := by
        cases hpx : p x with
        | false => rfl
        | true => rw [h x (List.mem_cons_self _ _) hpx] at hq; cases hq
      simpa [hp, hq] using ih'

/-- A grown index registers at least everything the smaller one does, so
`countNew` cannot increase. -/
theorem countNew_mono (fs : ZipFS) (st st' : PCState) (l : List (String × Part))
    (hd : st'.partname_dict = st.partname_dict ++ l) :
    countNew fs st' ≤ countNew fs st := by
  unfold countNew
  apply filter_length_mono
  intro a _ ha
  unfold pcContains dmem at ha ⊢
  rw [hd, dget_append]
  cases hg : dget st.partname_dict a with
  | none => rw [hg] at ha; simp at ha
  | some v => simp

theorem pcContains_false_not_mem (st : PCState) (pn : String)
    (h : pcContains st pn = false) : pn ∉ pcKeys st := by
  intro hm
  rw [(pcContains_iff st pn).mpr hm] at h
  cases h

/-- What any successful `loadparts` traversal does to the collection: it
appends some list of freshly loaded parts (each recorded under its own,
archive-resident item path) and preserves freedom from duplicates. -/
theorem loadpartsF_grows (tbl : SpecTables) (fs : ZipFS) (cti : CTI) :
    ∀ (fuel : Nat) (st : PCState) (base : String) (rels : List Rel) (st' : PCState),
      loadpartsF tbl fs cti fuel st base rels = .ok st' →
      ∃ l : List (String × Part),
        st'.partname_dict = st.partname_dict ++ l ∧
        st'.partsList = st.partsList ++ l.map Prod.snd ∧
        (∀ kv ∈ l, kv.2.partname = kv.1 ∧ fs.containsURI kv.1 = true) ∧
        ((pcKeys st).Nodup → (pcKeys st').Nodup) := by
  intro fuel
  induction fuel with
  | zero =>
    intro st base rels st' h
    simp [loadpartsF] at h
  | succ fuel ih =>
    intro st base rels st' h
    cases rels with
    | nil =>
      simp [loadpartsF] at h
      subst h
      exact ⟨[], by simp, by simp, by simp, id⟩
    | cons r rest =>
      cases htp : r.targetPartname base with
      | error e => simp [loadpartsF, htp] at h
      | ok pn =>
        cases hc : pcContains st pn with
        | true =>
          have h' : loadpartsF tbl fs cti fuel st base rest = .ok st' := by
            simpa [loadpartsF, htp, hc] using h
          exact ih st base rest st' h'
        | false =>
          cases hcti : ctiGetitem cti pn with
          | error e => simp [loadpartsF, htp, hc, hcti] at h
          | ok ct =>
            cases hlp : pcLoadpart tbl fs st pn ct with
            | mk res st₁ =>
              cases res with
              | error e => simp [loadpartsF, htp, hc, hcti, hlp] at h
              | ok part =>
                obtain ⟨hcf, hpl, hlist, hdict⟩ :=
                  pcLoadpart_ok tbl fs st pn ct part st₁ hlp
                obtain ⟨hmem, hname, _⟩ := partLoad_fields tbl fs pn ct part hpl
                have hkeys₁ : pcKeys st₁ = pcKeys st ++ [pn] := by
                  unfold pcKeys
                  rw [hdict]
                  simp
                have hnd₁ : (pcKeys st).Nodup → (pcKeys st₁).Nodup := by
                  intro hnd
                  rw [hkeys₁]
                  refine List.Nodup.append hnd (List.nodup_singleton pn) ?_
                  intro a ha hb
                  rw [List.mem_singleton] at hb
                  subst hb
                  exact pcContains_false_not_mem st a hcf ha
                have hstep : ∀ l₂₃ : List (String × Part),
                    (∀ kv ∈ l₂₃, kv.2.partname = kv.1 ∧ fs.containsURI kv.1 = true) →
                    ∀ kv ∈ (pn, part) :: l₂₃,
                      kv.2.partname = kv.1 ∧ fs.containsURI kv.1 = true := by
                  intro l₂₃ hl kv hkv
                  rcases List.mem_cons.mp hkv with rfl | hkv
                  · exact ⟨hname, hmem⟩
                  · exact hl kv hkv
                cases hri : part.relsitem with
                | none =>
                  have h' : loadpartsF tbl fs cti fuel st₁ base rest = .ok st' := by
                    simpa [loadpartsF, htp, hc, hcti, hlp, hri] using h
                  obtain ⟨l, hl1, hl2, hl3, hl4⟩ := ih st₁ base rest st' h'
                  refine ⟨(pn, part) :: l, ?_, ?_, hstep l hl3, fun hnd => hl4 (hnd₁ hnd)⟩
                  · rw [hl1, hdict]
                    simp
                  · rw [hl2, hlist]
                    simp
                | some ri =>
                  by_cases hre : ri.relationships.rels = []
                  · have h' : loadpartsF tbl fs cti fuel st₁ base rest = .ok st' := by
                      simpa [loadpartsF, htp, hc, hcti, hlp, hri, hre] using h
                    obtain ⟨l, hl1, hl2, hl3, hl4⟩ := ih st₁ base rest st' h'
                    refine ⟨(pn, part) :: l, ?_, ?_, hstep l hl3, fun hnd => hl4 (hnd₁ hnd)⟩
                    · rw [hl1, hdict]
                      simp
                    · rw [hl2, hlist]
                      simp
                  · cases hn : loadpartsF tbl fs cti fuel st₁ ri.baseURI
                        ri.relationships.rels with
                    | error e =>
                      simp [loadpartsF, htp, hc, hcti, hlp, hri, hre, hn] at h
                    | ok st₂ =>
                      have h' : loadpartsF tbl fs cti fuel st₂ base rest = .ok st' := by
                        simpa [loadpartsF, htp, hc, hcti, hlp, hri, hre, hn] using h
                      obtain ⟨l₂, h2a, h2b, h2c, h2d⟩ := ih _ _ _ _ hn
                      obtain ⟨l₃, h3a, h3b, h3c, h3d⟩ := ih _ _ _ _ h'
                      refine ⟨(pn, part) :: (l₂ ++ l₃), ?_, ?_, ?_,
                        fun hnd => h3d (h2d (hnd₁ hnd))⟩
                      · rw [h3a, h2a, hdict]
                        simp
                      · rw [h3b, h2b, hlist]
                        simp
                      · refine hstep (l₂ ++ l₃) ?_
                        intro kv hkv
                        rcases List.mem_append.mp hkv with hkv | hkv
                        · exact h2c kv hkv
                        · exact h3c kv hkv

/-! Error-kind lemmas: no operation of the source produces the embedding's
`outOfFuel` marker — every Python-level failure is one of the modelled
exceptions. -/

theorem targetPartname_error_kind (base : String) (r : Rel) (e : PErr)
    (h : r.targetPartname base = .error e) : e = .typeError := by
  unfold Rel.targetPartname at h
  cases ht : r.target with
  | none => rw [ht] at h; injection h with h; exact h.symm
  | some t => rw [ht] at h; cases h

theorem ctiGetitem_error_kind (c : CTI) (pn : String) (e : PErr)
    (h : ctiGetitem c pn = .error e) : e = .lookupError := by
  obtain ⟨cd, co⟩ := c
  cases cd with
  | none => simp only [ctiGetitem] at h; injection h with h; exact h.symm
  | some ds =>
    cases co with
    | none => simp only [ctiGetitem] at h; injection h with h; exact h.symm
    | some os =>
      simp only [ctiGetitem] at h
      cases hov : dget os (some pn) with
      | some v => rw [hov] at h; cases h
      | none =>
        rw [hov] at h
        cases hde : dget ds (some (extKey pn)) with
        | some v => rw [hde] at h; cases h
        | none => rw [hde] at h; injection h with h; exact h.symm

theorem ptsLookup_error_kind (tbl : SpecTables) (ct : Option String) (e : PErr)
    (h : ptsLookup tbl ct = .error e) : e = .keyError := by
  cases ct with
  | none => simp only [ptsLookup] at h; injection h with h; exact h.symm
  | some cts =>
    simp only [ptsLookup] at h
    cases hrow : dget tbl.pml_parttypes cts with
    | none => rw [hrow] at h; injection h with h; exact h.symm
    | some row => rw [hrow] at h; cases h

theorem getstream_error_kind (z : ZipFS) (u : String) (e : PErr)
    (h : z.getstream u = .error e) : e = .lookupError ∨ e = .keyError := by
  unfold ZipFS.getstream at h
  by_cases hc : z.containsURI u = true
  · simp only [hc, Bool.not_true, Bool.false_eq_true, if_false] at h
    cases hd : dget z.members (strDrop u 1) with
    | none => rw [hd] at h; injection h with h; exact Or.inr h.symm
    | some item => cases item <;> rw [hd] at h <;> cases h
  · have hc' : z.containsURI u = false := by simpa using hc
    simp only [hc', Bool.not_false, if_true] at h
    injection h with h
    exact Or.inl h.symm

theorem getelement_error_kind (z : ZipFS) (u : String) (e : PErr)
    (h : z.getelement u = .error e) :
    e = .lookupError ∨ e = .keyError ∨ e = .notXML := by
  unfold ZipFS.getelement at h
  by_cases hc : z.containsURI u = true
  · rw [if_neg (by simp [hc])] at h
    cases hs : z.getstream u with
    | error e' =>
      rw [hs] at h
      injection h with h
      subst h
      rcases getstream_error_kind z u e' hs with h | h
      · exact Or.inl h
      · exact Or.inr (Or.inl h)
    | ok b =>
      cases b with
      | raw bs =>
        rw [hs] at h
        injection h with h
        subst h
        exact Or.inr (Or.inr rfl)
      | ofXml el => rw [hs] at h; cases h
  · rw [if_pos (by simpa using hc)] at h
    injection h with h
    exact Or.inl h.symm

theorem relsAddAll_error_kind (elems : List Elem) :
    ∀ (rc : RelCollection) (e : PErr), relsAddAll rc elems = .error e →
      e = .duplicateKey := by
  induction elems with
  | nil => intro rc e h; cases h
  | cons el els ih =>
    intro rc e h
    unfold relsAddAll RelCollection.additem at h
    cases hd : dmem rc.id_dict (relFromElem el).rId with
    | true =>
      simp only [hd, if_true] at h
      injection h with h
      exact h.symm
    | false =>
      simp only [hd, Bool.false_eq_true, if_false] at h
      exact ih _ _ h

theorem relsItemLoad_not_outOfFuel (fs : ZipFS) (u : String)
    (h : relsItemLoad fs u = .error .outOfFuel) : False := by
  unfold relsItemLoad at h
  cases hE : fs.getelement u with
  | error e' =>
    rw [hE] at h
    injection h with h
    rcases getelement_error_kind fs u e' hE with hk | hk | hk <;> rw [hk] at h <;>
      cases h
  | ok element =>
    rw [hE] at h
    have hdup := relsAddAll_error_kind _ _ _ h
    cases hdup

theorem partLoad_not_outOfFuel (tbl : SpecTables) (fs : ZipFS) (pn : String)
    (ct : Option String) (h : partLoad tbl fs pn ct = .error .outOfFuel) :
    False := by
  cases hts : ptsLookup tbl ct with
  | error err =>
    have hk := ptsLookup_error_kind tbl ct err hts
    subst hk
    simp [partLoad, hts] at h
  | ok a =>
    by_cases hfmt : a.format = "xml"
    · cases hE : fs.getelement pn with
      | error err =>
        rcases getelement_error_kind fs pn err hE with hk | hk | hk <;> subst hk <;>
          simp [partLoad, hts, hfmt, hE] at h
      | ok el =>
        rw [partLoad_eq_xml tbl fs pn ct a el hts hfmt hE] at h
        cases hru : relsitemURI a pn fs with
        | none => rw [hru] at h; cases h
        | some u =>
          rw [hru] at h
          by_cases hcu : fs.containsURI u = true
          · cases hrl : relsItemLoad fs u with
            | error err =>
              have hpr : partRelsItemLoad pn fs u = .error err := by
                unfold partRelsItemLoad
                rw [hrl]
              simp only [hcu, Bool.not_true, Bool.false_eq_true, if_false, hpr] at h
              injection h with h
              rw [h] at hrl
              exact relsItemLoad_not_outOfFuel fs u hrl
            | ok rc =>
              have hpr : partRelsItemLoad pn fs u = .ok ⟨(posixSplit pn).1, u, rc⟩ := by
                unfold partRelsItemLoad
                rw [hrl]
              simp only [hcu, Bool.not_true, Bool.false_eq_true, if_false, hpr] at h
              cases h
          · have hcu2 : fs.containsURI u = false := by simpa using hcu
            simp [hcu2] at h
    · cases hB : fs.getstream pn with
      | error err =>
        rcases getstream_error_kind fs pn err hB with hk | hk <;> subst hk <;>
          simp [partLoad, hts, hfmt, hB] at h
      | ok b =>
        rw [partLoad_eq_binary tbl fs pn ct a b hts hfmt hB] at h
        cases hru : relsitemURI a pn fs with
        | none => rw [hru] at h; cases h
        | some u =>
          rw [hru] at h
          by_cases hcu : fs.containsURI u = true
          · cases hrl : relsItemLoad fs u with
            | error err =>
              have hpr : partRelsItemLoad pn fs u = .error err := by
                unfold partRelsItemLoad
                rw [hrl]
              simp only [hcu, Bool.not_true, Bool.false_eq_true, if_false, hpr] at h
              injection h with h
              rw [h] at hrl
              exact relsItemLoad_not_outOfFuel fs u hrl
            | ok rc =>
              have hpr : partRelsItemLoad pn fs u = .ok ⟨(posixSplit pn).1, u, rc⟩ := by
                unfold partRelsItemLoad
                rw [hrl]
              simp only [hcu, Bool.not_true, Bool.false_eq_true, if_false, hpr] at h
              cases h
          · have hcu2 : fs.containsURI u = false := by simpa using hcu
            simp [hcu2] at h

theorem pcLoadpart_not_outOfFuel (tbl : SpecTables) (fs : ZipFS) (st : PCState)
    (pn : String) (ct : Option String) (st₁ : PCState)
    (h : pcLoadpart tbl fs st pn ct = (.error .outOfFuel, st₁)) : False := by
  unfold pcLoadpart at h
  cases hd : dmem st.partname_dict pn with
  | true => simp [hd] at h
  | false =>
    simp only [hd, Bool.false_eq_true, if_false] at h
    cases hpl : partLoad tbl fs pn ct with
    | error e' =>
      rw [hpl] at h
      have h1 : e' = PErr.outOfFuel := by
        have := congrArg Prod.fst h
        simpa using this
      rw [h1] at hpl
      exact partLoad_not_outOfFuel tbl fs pn ct hpl
    | ok p =>
      rw [hpl] at h
      have := congrArg Prod.fst h
      simp at this

/-- The termination potential of a traversal configuration: each part still
loadable pays for one nesting step plus the longest relationship list it
can contribute, and each pending relationship pays one step. -/
def phi (fs : ZipFS) (st : PCState) (rels : List Rel) : Nat :=
  countNew fs st * (fsRelsBound fs + 2) + rels.length

/-- Fuel exceeding the potential is never exhausted: the graph walk always
terminates, because every nesting step loads a previously unseen part and
the number of loadable parts is bounded by the archive. -/
theorem loadpartsF_no_fuel_error (tbl : SpecTables) (fs : ZipFS) (cti : CTI) :
    ∀ (fuel : Nat) (st : PCState) (base : String) (rels : List Rel),
      phi fs st rels < fuel →
      loadpartsF tbl fs cti fuel st base rels ≠ .error .outOfFuel := by
  intro fuel
  induction fuel with
  | zero =>
    intro st base rels hphi
    exact absurd hphi (Nat.not_lt_zero _)
  | succ fuel ih =>
    intro st base rels hphi
    cases rels with
    | nil => simp [loadpartsF]
    | cons r rest =>
      cases htp : r.targetPartname base with
      | error e =>
        have hk := targetPartname_error_kind base r e htp
        subst hk
        simp [loadpartsF, htp]
      | ok pn =>
        cases hc : pcContains st pn with
        | true =>
          have heq : loadpartsF tbl fs cti (fuel + 1) st base (r :: rest)
              = loadpartsF tbl fs cti fuel st base rest := by
            simp [loadpartsF, htp, hc]
          rw [heq]
          apply ih
          unfold phi at hphi ⊢
          simp only [List.length_cons] at hphi
          omega
        | false =>
          cases hcti : ctiGetitem cti pn with
          | error e =>
            have hk := ctiGetitem_error_kind cti pn e hcti
            subst hk
            simp [loadpartsF, htp, hc, hcti]
          | ok ct =>
            cases hlp : pcLoadpart tbl fs st pn ct with
            | mk res st₁ =>
              cases res with
              | error e =>
                have heq : loadpartsF tbl fs cti (fuel + 1) st base (r :: rest)
                    = .error e := by
                  simp [loadpartsF, htp, hc, hcti, hlp]
                rw [heq]
                intro hcontra
                injection hcontra with hcontra
                rw [hcontra] at hlp
                exact pcLoadpart_not_outOfFuel tbl fs st pn ct st₁ hlp
              | ok part =>
                obtain ⟨hcf, hpl, hlist, hdict⟩ :=
                  pcLoadpart_ok tbl fs st pn ct part st₁ hlp
                obtain ⟨hmem, hname, hrif⟩ := partLoad_fields tbl fs pn ct part hpl
                have hcnt : countNew fs st = countNew fs st₁ + 1 :=
                  countNew_insert fs st pn part hc hmem st₁ hdict
                have hrest₁ : phi fs st₁ rest < fuel := by
                  unfold phi at hphi ⊢
                  rw [hcnt, Nat.succ_mul] at hphi
                  simp only [List.length_cons] at hphi
                  omega
                cases hri : part.relsitem with
                | none =>
                  have heq : loadpartsF tbl fs cti (fuel + 1) st base (r :: rest)
                      = loadpartsF tbl fs cti fuel st₁ base rest := by
                    simp [loadpartsF, htp, hc, hcti, hlp, hri]
                  rw [heq]
                  exact ih st₁ base rest hrest₁
                | some ri =>
                  have hb : ri.relationships.rels.length ≤ fsRelsBound fs :=
                    relsItemLoad_length fs _ _ (hrif ri hri).2.2
                  have hnested : phi fs st₁ ri.relationships.rels < fuel := by
                    unfold phi at hphi ⊢
                    rw [hcnt, Nat.succ_mul] at hphi
                    simp only [List.length_cons] at hphi
                    omega
                  by_cases hre : ri.relationships.rels = []
                  · have heq : loadpartsF tbl fs cti (fuel + 1) st base (r :: rest)
                        = loadpartsF tbl fs cti fuel st₁ base rest := by
                      simp [loadpartsF, htp, hc, hcti, hlp, hri, hre]
                    rw [heq]
                    exact ih st₁ base rest hrest₁
                  · cases hn : loadpartsF tbl fs cti fuel st₁ ri.baseURI
                        ri.relationships.rels with
                    | error e =>
                      have heq : loadpartsF tbl fs cti (fuel + 1) st base (r :: rest)
                          = .error e := by
                        simp [loadpartsF, htp, hc, hcti, hlp, hri, hre, hn]
                      rw [heq]
                      intro hcontra
                      injection hcontra with hcontra
                      rw [hcontra] at hn
                      exact ih st₁ ri.baseURI ri.relationships.rels hnested hn
                    | ok st₂ =>
                      have heq : loadpartsF tbl fs cti (fuel + 1) st base (r :: rest)
                          = loadpartsF tbl fs cti fuel st₂ base rest := by
                        simp [loadpartsF, htp, hc, hcti, hlp, hri, hre, hn]
                      rw [heq]
                      apply ih
                      obtain ⟨l₂, h2a, _, _, _⟩ :=
                        loadpartsF_grows tbl fs cti fuel st₁ ri.baseURI
                          ri.relationships.rels st₂ hn
                      have hm2 := countNew_mono fs st₁ st₂ l₂ h2a
                      unfold phi at hphi ⊢
                      rw [hcnt, Nat.succ_mul] at hphi
                      simp only [List.length_cons] at hphi
                      have hmul : countNew fs st₂ * (fsRelsBound fs + 2)
                          ≤ countNew fs st₁ * (fsRelsBound fs + 2) :=
                        Nat.mul_le_mul_right _ hm2
                      omega

/-- Keys only grow along a successful traversal. -/
theorem loadpartsF_keys_sub (tbl : SpecTables) (fs : ZipFS) (cti : CTI)
    (fuel : Nat) (st : PCState) (base : String) (rels : List Rel) (st' : PCState)
    (h : loadpartsF tbl fs cti fuel st base rels = .ok st') :
    ∀ pn ∈ pcKeys st, pn ∈ pcKeys st' := by
  obtain ⟨l, hdict, _, _, _⟩ := loadpartsF_grows tbl fs cti fuel st base rels st' h
  intro pn hpn
  unfold pcKeys at hpn ⊢
  rw [hdict]
  simp only [List.map_append, List.mem_append]
  exact Or.inl hpn

/-- Every relationship in the processed list has its resolved target
registered by the time a successful traversal returns. -/
theorem loadpartsF_targets (tbl : SpecTables) (fs : ZipFS) (cti : CTI) :
    ∀ (fuel : Nat) (st : PCState) (base : String) (rels : List Rel) (st' : PCState),
      loadpartsF tbl fs cti fuel st base rels = .ok st' →
      ∀ r ∈ rels, ∀ pn, r.targetPartname base = .ok pn → pn ∈ pcKeys st' := by
  intro fuel
  induction fuel with
  | zero =>
    intro st base rels st' h
    simp [loadpartsF] at h
  | succ fuel ih =>
    intro st base rels st' h r hr pn hpn
    cases rels with
    | nil => cases hr
    | cons r₀ rest =>
      cases htp : r₀.targetPartname base with
      | error e => simp [loadpartsF, htp] at h
      | ok pn₀ =>
        cases hc : pcContains st pn₀ with
        | true =>
          have h' : loadpartsF tbl fs cti fuel st base rest = .ok st' := by
            simpa [loadpartsF, htp, hc] using h
          rcases List.mem_cons.mp hr with rfl | hr
          · rw [htp] at hpn
            injection hpn with hpn
            subst hpn
            exact loadpartsF_keys_sub tbl fs cti fuel st base rest st' h' pn₀
              ((pcContains_iff st pn₀).mp hc)
          · exact ih st base rest st' h' r hr pn hpn
        | false =>
          cases hcti : ctiGetitem cti pn₀ with
          | error e => simp [loadpartsF, htp, hc, hcti] at h
          | ok ct =>
            cases hlp : pcLoadpart tbl fs st pn₀ ct with
            | mk res st₁ =>
              cases res with
              | error e => simp [loadpartsF, htp, hc, hcti, hlp] at h
              | ok part =>
                obtain ⟨hcf, hpl, hlist, hdict⟩ :=
                  pcLoadpart_ok tbl fs st pn₀ ct part st₁ hlp
                have hpn₀ : pn₀ ∈ pcKeys st₁ := by
                  unfold pcKeys
                  rw [hdict]
                  simp
                have finish : ∀ st₂ : PCState,
                    loadpartsF tbl fs cti fuel st₂ base rest = .ok st' →
                    pn₀ ∈ pcKeys st₂ → pn ∈ pcKeys st' := by
                  intro st₂ h' hmem₂
                  rcases List.mem_cons.mp hr with rfl | hr
                  · rw [htp] at hpn
                    injection hpn with hpn
                    subst hpn
                    exact loadpartsF_keys_sub tbl fs cti fuel st₂ base rest st' h'
                      pn₀ hmem₂
                  · exact ih st₂ base rest st' h' r hr pn hpn
                cases hri : part.relsitem with
                | none =>
                  have h' : loadpartsF tbl fs cti fuel st₁ base rest = .ok st' := by
                    simpa [loadpartsF, htp, hc, hcti, hlp, hri] using h
                  exact finish st₁ h' hpn₀
                | some ri =>
                  by_cases hre : ri.relationships.rels = []
                  · have h' : loadpartsF tbl fs cti fuel st₁ base rest
                        = .ok st' := by
                      simpa [loadpartsF, htp, hc, hcti, hlp, hri, hre] using h
                    exact finish st₁ h' hpn₀
                  · cases hn : loadpartsF tbl fs cti fuel st₁ ri.baseURI
                        ri.relationships.rels with
                    | error e =>
                      simp [loadpartsF, htp, hc, hcti, hlp, hri, hre, hn] at h
                    | ok st₂ =>
                      have h' : loadpartsF tbl fs cti fuel st₂ base rest
                          = .ok st' := by
                        simpa [loadpartsF, htp, hc, hcti, hlp, hri, hre, hn] using h
                      exact finish st₂ h'
                        (loadpartsF_keys_sub tbl fs cti fuel st₁ ri.baseURI
                          ri.relationships.rels st₂ hn pn₀ hpn₀)

/-- The relationships (owner base URI and list) that loading the part at a
given item path contributes to the walk — the deterministic replay of what
`loadparts` computes for the part. -/
def partRelsOf (tbl : SpecTables) (fs : ZipFS) (cti : CTI) (q : String) :
    String × List Rel :=
  match ctiGetitem cti q with
  | .error _ => ("", [])
  | .ok ct =>
    match partLoad tbl fs q ct with
    | .error _ => ("", [])
    | .ok part =>
      match part.relsitem with
      | some ri => (ri.baseURI, ri.relationships.rels)
      | none => ("", [])

/-- Every part registered by a successful traversal either predates it or
has had all its own relationship targets registered as well. -/
theorem loadpartsF_closed (tbl : SpecTables) (fs : ZipFS) (cti : CTI) :
    ∀ (fuel : Nat) (st : PCState) (base : String) (rels : List Rel) (st' : PCState),
      loadpartsF tbl fs cti fuel st base rels = .ok st' →
      ∀ q ∈ pcKeys st', q ∈ pcKeys st ∨
        (∀ r ∈ (partRelsOf tbl fs cti q).2, ∀ pn,
          r.targetPartname (partRelsOf tbl fs cti q).1 = .ok pn →
          pn ∈ pcKeys st') := by
  intro fuel
  induction fuel with
  | zero =>
    intro st base rels st' h
    simp [loadpartsF] at h
  | succ fuel ih =>
    intro st base rels st' h q hq
    cases rels with
    | nil =>
      simp [loadpartsF] at h
      subst h
      exact Or.inl hq
    | cons r₀ rest =>
      cases htp : r₀.targetPartname base with
      | error e => simp [loadpartsF, htp] at h
      | ok pn₀ =>
        cases hc : pcContains st pn₀ with
        | true =>
          have h' : loadpartsF tbl fs cti fuel st base rest = .ok st' := by
            simpa [loadpartsF, htp, hc] using h
          exact ih st base rest st' h' q hq
        | false =>
          cases hcti : ctiGetitem cti pn₀ with
          | error e => simp [loadpartsF, htp, hc, hcti] at h
          | ok ct =>
            cases hlp : pcLoadpart tbl fs st pn₀ ct with
            | mk res st₁ =>
              cases res with
              | error e => simp [loadpartsF, htp, hc, hcti, hlp] at h
              | ok part =>
                obtain ⟨hcf, hpl, hlist, hdict⟩ :=
                  pcLoadpart_ok tbl fs st pn₀ ct part st₁ hlp
                have hkeys₁ : pcKeys st₁ = pcKeys st ++ [pn₀] := by
                  unfold pcKeys
                  rw [hdict]
                  simp
                have hobl₀ : ∀ (stAfter : PCState),
                    (∀ p ∈ pcKeys stAfter, p ∈ pcKeys st') →
                    (part.relsitem = none ∨
                      ∃ ri, part.relsitem = some ri ∧
                        (ri.relationships.rels = [] ∨
                          loadpartsF tbl fs cti fuel st₁ ri.baseURI
                            ri.relationships.rels = .ok stAfter)) →
                    ∀ r ∈ (partRelsOf tbl fs cti pn₀).2, ∀ pn,
                      r.targetPartname (partRelsOf tbl fs cti pn₀).1 = .ok pn →
                      pn ∈ pcKeys st' := by
                  intro stAfter hsub hcase r hr pn hpn
                  rcases hcase with hri | ⟨ri, hri, hcase⟩
                  · simp [partRelsOf, hcti, hpl, hri] at hr
                  · rcases hcase with hre | hn
                    · simp [partRelsOf, hcti, hpl, hri, hre] at hr
                    · have hpro : partRelsOf tbl fs cti pn₀
                          = (ri.baseURI, ri.relationships.rels) := by
                        simp [partRelsOf, hcti, hpl, hri]
                      rw [hpro] at hr hpn
                      exact hsub pn
                        (loadpartsF_targets tbl fs cti fuel st₁ ri.baseURI
                          ri.relationships.rels stAfter hn r hr pn hpn)
                cases hri : part.relsitem with
                | none =>
                  have h' : loadpartsF tbl fs cti fuel st₁ base rest = .ok st' := by
                    simpa [loadpartsF, htp, hc, hcti, hlp, hri] using h
                  rcases ih st₁ base rest st' h' q hq with hq₁ | hobl
                  · rw [hkeys₁, List.mem_append] at hq₁
                    rcases hq₁ with hq₁ | hq₁
                    · exact Or.inl hq₁
                    · rw [List.mem_singleton] at hq₁
                      subst hq₁
                      exact Or.inr (hobl₀ st₁
                        (loadpartsF_keys_sub tbl fs cti fuel st₁ base rest st' h')
                        (Or.inl hri))
                  · exact Or.inr hobl
                | some ri =>
                  by_cases hre : ri.relationships.rels = []
                  · have h' : loadpartsF tbl fs cti fuel st₁ base rest
                        = .ok st' := by
                      simpa [loadpartsF, htp, hc, hcti, hlp, hri, hre] using h
                    rcases ih st₁ base rest st' h' q hq with hq₁ | hobl
                    · rw [hkeys₁, List.mem_append] at hq₁
                      rcases hq₁ with hq₁ | hq₁
                      · exact Or.inl hq₁
                      · rw [List.mem_singleton] at hq₁
                        subst hq₁
                        exact Or.inr (hobl₀ st₁
                          (loadpartsF_keys_sub tbl fs cti fuel st₁ base rest st' h')
                          (Or.inr ⟨ri, hri, Or.inl hre⟩))
                    · exact Or.inr hobl
                  · cases hn : loadpartsF tbl fs cti fuel st₁ ri.baseURI
                        ri.relationships.rels with
                    | error e =>
                      simp [loadpartsF, htp, hc, hcti, hlp, hri, hre, hn] at h
                    | ok st₂ =>
                      have h' : loadpartsF tbl fs cti fuel st₂ base rest
                          = .ok st' := by
                        simpa [loadpartsF, htp, hc, hcti, hlp, hri, hre, hn] using h
                      have hsub₂ := loadpartsF_keys_sub tbl fs cti fuel st₂ base
                        rest st' h'
                      rcases ih st₂ base rest st' h' q hq with hq₂ | hobl
                      · rcases ih st₁ ri.baseURI ri.relationships.rels st₂ hn
                            q hq₂ with hq₁ | hobl₂
                        · rw [hkeys₁, List.mem_append] at hq₁
                          rcases hq₁ with hq₁ | hq₁
                          · exact Or.inl hq₁
                          · rw [List.mem_singleton] at hq₁
                            subst hq₁
                            exact Or.inr (hobl₀ st₂ hsub₂
                              (Or.inr ⟨ri, hri, Or.inr hn⟩))
                        · refine Or.inr ?_
                          intro r hr pn hpn
                          exact hsub₂ pn (hobl₂ r hr pn hpn)
                      · exact Or.inr hobl

/-- Reachability through the relationship graph: an item path is reachable
when it is the resolved target of a root relationship or of a relationship
belonging to a reachable part. -/
inductive Reach (tbl : SpecTables) (fs : ZipFS) (cti : CTI) (base : String)
    (rels : List Rel) : String → Prop
  | base (r : Rel) (pn : String) (hr : r ∈ rels)
      (ht : r.targetPartname base = .ok pn) : Reach tbl fs cti base rels pn
  | step (q : String) (r : Rel) (pn : String)
      (hq : Reach tbl fs cti base rels q)
      (hr : r ∈ (partRelsOf tbl fs cti q).2)
      (ht : r.targetPartname (partRelsOf tbl fs cti q).1 = .ok pn) :
      Reach tbl fs cti base rels pn

/-- Every reachable item path is registered by a successful traversal from
the empty collection. -/
theorem loadpartsF_complete (tbl : SpecTables) (fs : ZipFS) (cti : CTI)
    (fuel : Nat) (base : String) (rels : List Rel) (st' : PCState)
    (h : loadpartsF tbl fs cti fuel pcEmpty base rels = .ok st') :
    ∀ pn, Reach tbl fs cti base rels pn → pn ∈ pcKeys st' := by
  intro pn hreach
  induction hreach with
  | base r pn hr ht =>
    exact loadpartsF_targets tbl fs cti fuel pcEmpty base rels st' h r hr pn ht
  | step q r pn hq hr ht ihq =>
    rcases loadpartsF_closed tbl fs cti fuel pcEmpty base rels st' h q ihq with
      hq0 | hobl
    · simp [pcEmpty, pcKeys] at hq0
    · exact hobl r hr pn ht

/-- C2: the graph-driven recursive load started from the root
relationships terminates on every package — cyclic or not — and visits
each reachable item path exactly once.  Concretely: with the fuel bound
`fuelFor fs` the embedding never exhausts fuel (the recursion is bounded,
because every nesting step loads a part not yet in the collection and the
archive is finite); when the walk completes, every item path reachable
from the root relationships appears exactly once in the resulting part
collection; and a relationship whose resolved target is already loaded is
skipped — the walk simply moves on to the remaining relationships without
re-loading. -/
theorem loadparts_cycle_safe (tbl : SpecTables) (fs : ZipFS) (cti : CTI)
    (prels : RelCollection) (hr : pkgRelsItemLoad fs = .ok prels) :
    (loadpartsF tbl fs cti (fuelFor fs) pcEmpty pkgRelsBaseURI prels.rels
       ≠ .error .outOfFuel) ∧
    (∀ st', loadpartsF tbl fs cti (fuelFor fs) pcEmpty pkgRelsBaseURI prels.rels
        = .ok st' →
      ∀ pn, Reach tbl fs cti pkgRelsBaseURI prels.rels pn →
        (st'.partsList.map Part.partname).count pn = 1) ∧
    (∀ (fuel : Nat) (st : PCState) (r : Rel) (rest : List Rel) (pn : String),
      r.targetPartname pkgRelsBaseURI = .ok pn → pcContains st pn = true →
      loadpartsF tbl fs cti (fuel + 1) st pkgRelsBaseURI (r :: rest)
        = loadpartsF tbl fs cti fuel st pkgRelsBaseURI rest) := by
  refine ⟨?_, ?_, ?_⟩
  · apply loadpartsF_no_fuel_error
    have h1 : countNew fs pcEmpty ≤ fs.members.length := countNew_le fs pcEmpty
    have h2 : prels.rels.length ≤ fsRelsBound fs :=
      relsItemLoad_length fs pkgRelsItemURI prels hr
    have h3 : countNew fs pcEmpty * (fsRelsBound fs + 2)
        ≤ fs.members.length * (fsRelsBound fs + 2) :=
      Nat.mul_le_mul_right _ h1
    unfold phi fuelFor
    rw [Nat.succ_mul]
    omega
  · intro st' h pn hreach
    have hmem := loadpartsF_complete tbl fs cti (fuelFor fs) pkgRelsBaseURI
      prels.rels st' h pn hreach
    obtain ⟨l, hdict, hlist, hkv, hnd⟩ :=
      loadpartsF_grows tbl fs cti (fuelFor fs) pcEmpty pkgRelsBaseURI
        prels.rels st' h
    have hnames : st'.partsList.map Part.partname = pcKeys st' := by
      unfold pcKeys
      rw [hlist, hdict]
      show ((pcEmpty.partsList ++ l.map Prod.snd).map Part.partname)
          = (pcEmpty.partname_dict ++ l).map Prod.fst
      simp only [pcEmpty, List.nil_append, List.map_map]
      apply List.map_congr_left
      intro kv hkvm
      exact (hkv kv hkvm).1
    rw [hnames]
    exact List.count_eq_one_of_mem (hnd (by simp [pcEmpty, pcKeys])) hmem
  · intro fuel st r rest pn h1 h2
    simp [loadpartsF, h1, h2]

/-- Example tables for the cyclic-package witness. -/
def tblCyc : SpecTables :=
  { pml_parttypes :=
      [("ctA", { basename := "a", ext := ".xml", cardinality := "single",
                 required := true, baseURI := "/ppt", has_rels := "optional",
                 rel_type := "rtA" }),
       ("ctB", { basename := "b", ext := ".xml", cardinality := "single",
                 required := true, baseURI := "/ppt", has_rels := "optional",
                 rel_type := "rtB" })]
    default_content_types := [(".rels", "ctRels"), (".xml", "ctXml")]
    loadclassmap := []
    defloadclass := none }

/-- A package whose relationship graph has a cycle: the root references
part A, A references B, and B references A again. -/
def fsCyc : ZipFS :=
  ⟨[("[Content_Types].xml", .xml (Elem.mk (qname "ct" "Types") []
      [Elem.mk (qname "ct" "Override")
        [("PartName", "/ppt/A.xml"), ("ContentType", "ctA")] [],
       Elem.mk (qname "ct" "Override")
        [("PartName", "/ppt/B.xml"), ("ContentType", "ctB")] []])),
    ("_rels/.rels", .xml (Elem.mk (qname "pr" "Relationships") []
      [Elem.mk (qname "pr" "Relationship")
        [("Id", "rId1"), ("Type", "rtA"), ("Target", "ppt/A.xml")] []])),
    ("ppt/A.xml", .xml (Elem.mk "x:a" [] [])),
    ("ppt/_rels/A.xml.rels", .xml (Elem.mk (qname "pr" "Relationships") []
      [Elem.mk (qname "pr" "Relationship")
        [("Id", "rIdB"), ("Type", "rtB"), ("Target", "B.xml")] []])),
    ("ppt/B.xml", .xml (Elem.mk "x:b" [] [])),
    ("ppt/_rels/B.xml.rels", .xml (Elem.mk (qname "pr" "Relationships") []
      [Elem.mk (qname "pr" "Relationship")
        [("Id", "rIdA"), ("Type", "rtA"), ("Target", "A.xml")] []]))]⟩

/-- The content-types index of the cyclic package. -/
def ctiCyc : CTI :=
  match ctiLoad fsCyc with
  | .ok c => c
  | .error _ => ctiNew

/-- The root relationships of the cyclic package. -/
def prelsCyc : RelCollection :=
  match pkgRelsItemLoad fsCyc with
  | .ok rc => rc
  | .error _ => rcEmpty

/-- The part collection the walk produces on the cyclic package. -/
def stCyc : PCState :=
  match loadpartsF tblCyc fsCyc ctiCyc (fuelFor fsCyc) pcEmpty pkgRelsBaseURI
      prelsCyc.rels with
  | .ok st => st
  | .error _ => pcEmpty

/-- C2 witness: on the concrete cyclic package (A references B references
A), loading completes without exhausting the recursion bound and each of A
and B appears exactly once in the resulting part collection. -/
theorem loadparts_cycle_safe_witness :
    loadpartsF tblCyc fsCyc ctiCyc (fuelFor fsCyc) pcEmpty pkgRelsBaseURI
      prelsCyc.rels ≠ .error .outOfFuel ∧
    (stCyc.partsList.map Part.partname).count "/ppt/A.xml" = 1 ∧
    (stCyc.partsList.map Part.partname).count "/ppt/B.xml" = 1 := by
  have hthm := loadparts_cycle_safe tblCyc fsCyc ctiCyc prelsCyc rfl
  have hok : loadpartsF tblCyc fsCyc ctiCyc (fuelFor fsCyc) pcEmpty
      pkgRelsBaseURI prelsCyc.rels = .ok stCyc := rfl
  have hreachA : Reach tblCyc fsCyc ctiCyc pkgRelsBaseURI prelsCyc.rels
      "/ppt/A.xml" :=
    Reach.base ⟨some "rId1", some "rtA", some "ppt/A.xml"⟩ "/ppt/A.xml"
      (by decide) rfl
  have hreachB : Reach tblCyc fsCyc ctiCyc pkgRelsBaseURI prelsCyc.rels
      "/ppt/B.xml" :=
    Reach.step "/ppt/A.xml" ⟨some "rIdB", some "rtB", some "B.xml"⟩ "/ppt/B.xml"
      hreachA (by decide) rfl
  exact ⟨hthm.1, hthm.2.1 stCyc hok "/ppt/A.xml" hreachA,
         hthm.2.1 stCyc hok "/ppt/B.xml" hreachB⟩

end Packaging
